import Mathlib

/-! # git-cm: the commit assistant of `main.go`

A shallow embedding of the validators, the branch hint, the prompt loops, the
preference store and the message assembly of `main.go`, followed by the
properties proved about them.

Strings.  A Go string is a byte sequence.  Every library routine the program applies to
one (`regexp`, `strings.ToLower`, `strings.TrimSpace`, the `[]rune` conversion,
`encoding/json`) reads it through the UTF-8 decoder, which yields, position by
position, either a code point or, on a byte that starts no valid encoding, the
replacement rune U+FFFD of width one.  A string is modelled as the sequence of
these decoded units (`GoRune`); its byte length `len` is the sum of their
widths.
-/

namespace GitCm

/-- One decoded unit of a Go string: a code point with a valid UTF-8 encoding, or
a stray byte, which Go decodes as U+FFFD of width one. -/
inductive GoRune
  | ch (c : Char)
  | bad (b : UInt8)
  deriving DecidableEq, Repr

/-- Go strings, as sequences of decoded units. -/
abbrev Str := List GoRune

/-- The rune a `for range` loop, `[]rune(s)` or the regexp engine sees. -/
def GoRune.rune : GoRune → Char
  | .ch c => c
  | .bad _ => Char.ofNat 0xFFFD

/-- Number of bytes the unit occupies in the string. -/
def GoRune.width : GoRune → Nat
  | .ch c => c.utf8Size
  | .bad _ => 1

/-- Go's builtin `len` on a string: its length in bytes. -/
def len (s : Str) : Nat := (s.map GoRune.width).sum

/-- A string literal of the source. -/
def lit (s : String) : Str := s.toList.map GoRune.ch

/-! ## The part of `regexp` the program uses -/

/-- Syntax of the regular expressions occurring in `main.go`. -/
inductive Regex
  /-- `^` (without the `m` flag: beginning of the text). -/
  | beginText
  /-- `$` (without the `m` flag: end of the text). -/
  | endText
  /-- A literal character. -/
  | char (c : Char)
  /-- A character class given by inclusive ranges, as in `[a-z0-9]`. -/
  | cls (ranges : List (Char × Char))
  /-- Concatenation. -/
  | cat (a b : Regex)
  /-- Greedy `*`. -/
  | star (a : Regex)
  /-- Greedy `+`. -/
  | plus (a : Regex)

/-- Membership of a rune in a class. -/
def inClass (ranges : List (Char × Char)) (c : Char) : Bool :=
  ranges.any (fun r => r.1.toNat ≤ c.toNat && c.toNat ≤ r.2.toNat)

/-- Iteration of a greedy loop: every way of running the body `f` zero or more
times from `s`, most preferred first (one more iteration is preferred to
stopping).  An iteration has to consume input, so `s.length` iterations at most
are possible and the counter `n` starts there. -/
def starAll (f : Str → List Str) : Nat → Str → List Str
  | 0, s => [s]
  | n + 1, s => ((f s).filter (fun s' => s'.length < s.length)).flatMap (starAll f n) ++ [s]

/-- All matches of `re` that start at the position of the text `t` where the
suffix `s` begins, each given by the suffix that remains after it, in the
preference order of Go's leftmost-first semantics. -/
def matchAll (t : Str) : Regex → Str → List Str
  | .beginText, s => if s.length = t.length then [s] else []
  | .endText, s => if s.length = 0 then [s] else []
  | .char _, [] => []
  | .char c, x :: xs => if x.rune = c then [xs] else []
  | .cls _, [] => []
  | .cls rs, x :: xs => if inClass rs x.rune then [xs] else []
  | .cat a b, s => (matchAll t a s).flatMap (matchAll t b)
  | .star a, s => starAll (matchAll t a) s.length s
  | .plus a, s => (matchAll t a s).flatMap (fun s' => starAll (matchAll t a) s'.length s')

/-- Unanchored search from the start position of `s` rightwards: the remainder
of the preferred match at the leftmost position that has one, with the suffix
it starts at. -/
def search (t : Str) (re : Regex) : Str → Option (Str × Str)
  | [] => (matchAll t re []).head?.map (fun s' => ([], s'))
  | x :: xs =>
    match (matchAll t re (x :: xs)).head? with
    | some s' => some (x :: xs, s')
    | none => search t re xs

/-- `(*Regexp).MatchString`: whether the text contains a match. -/
def Regex.MatchString (re : Regex) (t : Str) : Bool := (search t re t).isSome

/-- `(*Regexp).FindString`: the text of the leftmost match, `""` if there is none. -/
def Regex.FindString (re : Regex) (t : Str) : Str :=
  match search t re t with
  | some (s, s') => s.take (s.length - s'.length)
  | none => []

/-- Concatenation of a list of expressions. -/
def Regex.seq : List Regex → Regex
  | [] => .star (.cls [])
  | [a] => a
  | a :: rest => .cat a (Regex.seq rest)

/-- The expression of a literal string. -/
def Regex.str (s : String) : Regex := Regex.seq (s.toList.map Regex.char)

/-- The class `\d` (ASCII digits in Go). -/
def Regex.digit : Regex := .cls [('0', '9')]

/-- The class `[a-z0-9]`. -/
def Regex.lowerAlnum : Regex := .cls [('a', 'z'), ('0', '9')]

/-- The pattern `^bcds-\d+(-[a-z0-9]+)*$` of `validateWorkItem`. -/
def workItemPattern : Regex :=
  .cat .beginText (.cat (Regex.str "bcds-") (.cat (.plus Regex.digit)
    (.cat (.star (.cat (.char '-') (.plus Regex.lowerAlnum))) .endText)))

/-- The pattern `bcds-\d+(?:-[a-z0-9]+)*` of `extractWorkItemFromBranch`. -/
def branchPattern : Regex :=
  .cat (Regex.str "bcds-") (.cat (.plus Regex.digit)
    (.star (.cat (.char '-') (.plus Regex.lowerAlnum))))

/-- The function `validateWorkItem` of `main.go`. -/
def validateWorkItem (workItem : Str) : Bool :=
  workItemPattern.MatchString workItem

/-! ## The part of `unicode`, `strings` and `strconv` the program uses -/

/-- `unicode.IsSpace`: the Latin-1 spaces `\t \n \v \f \r`, space, U+0085 and
U+00A0, and beyond Latin-1 the characters with the White_Space property. -/
def unicodeIsSpace (c : Char) : Bool :=
  let n := c.toNat
  (0x09 ≤ n && n ≤ 0x0D) || n == 0x20 || n == 0x85 || n == 0xA0 || n == 0x1680 ||
    (0x2000 ≤ n && n ≤ 0x200A) || n == 0x2028 || n == 0x2029 || n == 0x202F ||
    n == 0x205F || n == 0x3000

/-- The case tables of the `unicode` package (`unicode.ToLower`,
`unicode.IsLower`), which depend on the Unicode version of the toolchain and
are taken as a parameter.  They are only required to treat ASCII as every
Unicode version does and to map a lowercased rune to itself. -/
structure Unicode where
  /-- `unicode.ToLower`. -/
  toLower : Char → Char
  /-- `unicode.IsLower`. -/
  isLower : Char → Bool
  toLower_ascii : ∀ c : Char, c.toNat < 128 → toLower c = c.toLower
  isLower_ascii : ∀ c : Char, c.toNat < 128 → isLower c = c.isLower
  toLower_toLower : ∀ c : Char, toLower (toLower c) = toLower c

/-- Whether the decoded unit is white space (a stray byte is not). -/
def isSpace (r : GoRune) : Bool := unicodeIsSpace r.rune

/-- `strings.TrimSpace`: the string without its leading and trailing white space. -/
def TrimSpace (s : Str) : Str := (s.dropWhile isSpace).rdropWhile isSpace

/-- `strings.ToLower`: every rune mapped by `unicode.ToLower`; the mapping
rewrites a stray byte as U+FFFD. -/
def ToLower (U : Unicode) (s : Str) : Str := s.map (fun r => GoRune.ch (U.toLower r.rune))

/-- `strings.HasSuffix`, for a suffix made of ASCII characters (the program
asks for `"."` only). -/
def HasSuffix (s suffix : Str) : Bool := suffix.isSuffixOf s

/-- `strings.Join`. -/
def Join (elems : List Str) (sep : Str) : Str := sep.intercalate elems

/-- Value of a decimal digit. -/
def digitVal : GoRune → Option Nat
  | .ch c => if 48 ≤ c.toNat ∧ c.toNat ≤ 57 then some (c.toNat - 48) else none
  | .bad _ => none

/-- Value of a non-empty run of decimal digits read after the value `acc`;
`none` on any other character. -/
def parseDigits (acc : Nat) : Str → Option Nat
  | [] => some acc
  | r :: rest =>
    match digitVal r with
    | some d => parseDigits (acc * 10 + d) rest
    | none => none

/-- Width in bits of Go's `int`. -/
def intSize : Nat := 64

/-- The values of Go's `int`. -/
def isInt (i : Int) : Prop := -(2 : Int) ^ (intSize - 1) ≤ i ∧ i < (2 : Int) ^ (intSize - 1)

/-- Membership in the range of `int` is decidable. -/
instance (i : Int) : Decidable (isInt i) := by
  unfold isInt
  infer_instance

/-- The optional sign at the head of a number: whether it is `-`, and the rest. -/
def splitSign : Str → Bool × Str
  | .ch c :: rest =>
    if c = '-' then (true, rest)
    else if c = '+' then (false, rest)
    else (false, .ch c :: rest)
  | s => (false, s)

/-- `strconv.Atoi`: an optional sign, then one or more decimal digits, the
value fitting in an `int`; `none` stands for the error result. -/
def Atoi (s : Str) : Option Int :=
  if (splitSign s).2 = [] then none
  else
    match parseDigits 0 (splitSign s).2 with
    | none => none
    | some n =>
      if isInt (if (splitSign s).1 then -(n : Int) else (n : Int)) then
        some (if (splitSign s).1 then -(n : Int) else (n : Int))
      else none

/-- Decimal digits of `n`, least significant first (`fuel` bounds their number). -/
def digitsRev : Nat → Nat → List Nat
  | 0, _ => []
  | fuel + 1, n => if n < 10 then [n] else (n % 10) :: digitsRev fuel (n / 10)

/-- The character of a decimal digit. -/
def digitChar (d : Nat) : GoRune := .ch (Char.ofNat (48 + d))

/-- Decimal notation of a natural number. -/
def natToStr (n : Nat) : Str := ((digitsRev (n + 1) n).reverse).map digitChar

/-- `strconv.Itoa`. -/
def Itoa (i : Int) : Str :=
  match i with
  | .ofNat n => natToStr n
  | .negSucc n => .ch '-' :: natToStr (n + 1)

/-! ## Validators and catalog of `main.go` -/

/-- The type `CommitType` of `main.go`. -/
structure CommitType where
  code : Str
  description : Str

/-- The type `LastInputs` of `main.go`. -/
structure LastInputs where
  WorkItem : Str
  CommitTypeIndex : Int
  Scope : Str
  Description : Str
  IssueRef : Str
  deriving DecidableEq

/-- The zero value `LastInputs{}`. -/
def LastInputs.zero : LastInputs := ⟨[], 0, [], [], []⟩

/-- The function `getCommitTypes` of `main.go`. -/
def getCommitTypes : List CommitType :=
  [ ⟨lit "feat", lit "新功能 (A new feature)"⟩,
    ⟨lit "fix", lit "Bug修复 (A bug fix)"⟩,
    ⟨lit "docs", lit "文档更新 (Documentation only changes)"⟩,
    ⟨lit "style", lit "代码格式 (Changes that do not affect code meaning)"⟩,
    ⟨lit "refactor", lit "代码重构 (Neither fixes bug nor adds feature)"⟩,
    ⟨lit "perf", lit "性能优化 (A code change that improves performance)"⟩,
    ⟨lit "test", lit "测试相关 (Adding or correcting tests)"⟩,
    ⟨lit "build", lit "构建相关 (Affect build system or dependencies)"⟩,
    ⟨lit "ci", lit "CI配置 (Changes to CI configuration files)"⟩,
    ⟨lit "chore", lit "其他杂项 (Other changes)"⟩ ]

/-- The function `validateShortDescription` of `main.go`. -/
def validateShortDescription (U : Unicode) (desc : Str) : Bool :=
  let desc := TrimSpace desc
  if len desc = 0 ∨ len desc > 50 then false
  else
    match desc with
    | [] => false
    | r :: _ =>
      if !U.isLower r.rune then false
      else if HasSuffix desc (lit ".") then false
      else true

/-- The function `extractWorkItemFromBranch` of `main.go`. -/
def extractWorkItemFromBranch (U : Unicode) (branch : Str) : Str :=
  let lower := ToLower U branch
  let matched := branchPattern.FindString lower
  if matched ≠ [] then matched else lower

/-! ## Console input

Standard input is the list of lines that remain to be read, each as
`scanner.Text()` yields it; at the end of input `Scan` fails and `Text()` is
empty, so every further read returns the empty line.  Each `readLine` takes one
line, as it does on a terminal.  Prompts and messages are output only and are
left out. -/

/-- The lines not yet read from standard input. -/
abbrev Input := List Str

/-- The function `readLine` of `main.go`. -/
def readLine (inp : Input) : Str × Input :=
  match inp with
  | [] => (TrimSpace [], [])
  | l :: rest => (TrimSpace l, rest)

/-- The function `readLineWithDefault` of `main.go`. -/
def readLineWithDefault (defaultVal : Str) (inp : Input) : Str × Input :=
  let (input, rest) := readLine inp
  if TrimSpace input = [] then (defaultVal, rest) else (input, rest)

/-- The function `readYesNo` of `main.go`. -/
def readYesNo (U : Unicode) : Input → Bool × Input
  | [] =>
    -- end of input: the answer read is empty, which means no
    (false, [])
  | l :: rest =>
    let answer := ToLower U (readLine (l :: rest)).1
    if answer = lit "y" ∨ answer = lit "yes" then (true, rest)
    else if answer = [] ∨ answer = lit "n" ∨ answer = lit "no" then (false, rest)
    else readYesNo U rest

/-- The loop of `readMultiline`: the lines up to the first blank one. -/
def readLines : Input → List Str × Input
  | [] => ([], [])
  | l :: rest =>
    if TrimSpace l = [] then ([], rest)
    else ((readLines rest).1.cons l, (readLines rest).2)

/-- The function `readMultiline` of `main.go`. -/
def readMultiline (inp : Input) : Str × Input :=
  (Join (readLines inp).1 (lit "\n"), (readLines inp).2)

/-! ## The work-item grammar, in the words of the specification -/

/-- An ASCII digit `0`-`9`. -/
def isAsciiDigit : GoRune → Bool
  | .ch c => 48 ≤ c.toNat && c.toNat ≤ 57
  | .bad _ => false

/-- A character from `a`-`z` or `0`-`9`. -/
def isLowerAlnum : GoRune → Bool
  | .ch c => (97 ≤ c.toNat && c.toNat ≤ 122) || (48 ≤ c.toNat && c.toNat ≤ 57)
  | .bad _ => false

/-- The text of a work item: `bcds-`, then one or more ASCII digits, then zero
or more groups, each made of `-` and one or more characters from `a`-`z` or
`0`-`9`. -/
def WorkItemText (s : Str) : Prop :=
  ∃ (digits : Str) (groups : List Str),
    s = lit "bcds-" ++ digits ++ groups.flatMap (fun g => GoRune.ch '-' :: g) ∧
    digits ≠ [] ∧ (∀ r ∈ digits, isAsciiDigit r = true) ∧
    ∀ g ∈ groups, g ≠ [] ∧ ∀ r ∈ g, isLowerAlnum r = true

/-! ## The retry loops and the message assembly of `main` -/

/-- The shape shared by the three retry loops of `main`
(`for { x = readLineWithDefault(prompt, default); if ok(x) { break }; print error }`):
entries are read until `accept` takes one.  At the end of input every read
yields the default, so a rejected default is rejected for ever: the loop does
not terminate, which is the result `none`. -/
def promptLoop {α : Type} (defaultVal : Str) (accept : Str → Option α) :
    Input → Option (α × Input)
  | [] => (accept (readLineWithDefault defaultVal []).1).map (fun a => (a, []))
  | l :: rest =>
    match accept (readLineWithDefault defaultVal (l :: rest)).1 with
    | some a => some (a, rest)
    | none => promptLoop defaultVal accept rest

/-- Body of the work-item loop (lines 216-219): the entry is lowercased, then validated. -/
def acceptWorkItem (U : Unicode) (entry : Str) : Option Str :=
  let workItem := ToLower U entry
  if validateWorkItem workItem then some workItem else none

/-- The default of the work-item prompt (lines 212-215): the prior work item,
or the branch suggestion when there is none. -/
def defaultWorkItem (lastInputs : LastInputs) (branchSuggestion : Str) : Str :=
  if lastInputs.WorkItem = [] then branchSuggestion else lastInputs.WorkItem

/-- The work-item loop of `main` (lines 211-221). -/
def workItemLoop (U : Unicode) (lastInputs : LastInputs) (branchSuggestion : Str) :
    Input → Option (Str × Input) :=
  promptLoop (defaultWorkItem lastInputs branchSuggestion) (acceptWorkItem U)

/-- Body of the commit-type loop (lines 241-246): the code chosen and the new
value of `defaultIndex`. -/
def acceptCommitType (input : Str) : Option (Str × Int) :=
  match Atoi input with
  | some choice =>
    if choice ≥ 1 ∧ choice ≤ (getCommitTypes.length : Int) then
      (getCommitTypes[(choice - 1).toNat]?).map (fun ct => (ct.code, choice))
    else none
  | none => none

/-- The default of the commit-type prompt (lines 231-238): the prior index in
decimal when it lies within the catalog, nothing otherwise. -/
def defaultIndexStr (lastInputs : LastInputs) : Str :=
  let defaultIndex : Int :=
    if lastInputs.CommitTypeIndex < 1 ∨
        lastInputs.CommitTypeIndex > (getCommitTypes.length : Int) then 0
    else lastInputs.CommitTypeIndex
  if defaultIndex > 0 then Itoa defaultIndex else []

/-- The commit-type loop of `main` (lines 239-248). -/
def commitTypeLoop (lastInputs : LastInputs) : Input → Option ((Str × Int) × Input) :=
  promptLoop (defaultIndexStr lastInputs) acceptCommitType

/-- The description loop of `main` (lines 256-262). -/
def descriptionLoop (U : Unicode) (lastDescription : Str) : Input → Option (Str × Input) :=
  promptLoop lastDescription
    (fun description => if validateShortDescription U description then some description else none)

/-- The scope step of `main` (line 251). -/
def scopeStep (lastInputs : LastInputs) (inp : Input) : Str × Input :=
  (TrimSpace (readLineWithDefault lastInputs.Scope inp).1, (readLineWithDefault lastInputs.Scope inp).2)

/-- The issue-reference step of `main` (line 277). -/
def issueRefStep (lastInputs : LastInputs) (inp : Input) : Str × Input :=
  (TrimSpace (readLineWithDefault lastInputs.IssueRef inp).1,
    (readLineWithDefault lastInputs.IssueRef inp).2)

/-- The header built at lines 280-284 of `main`. -/
def buildHeader (commitType scope description : Str) : Str :=
  let header := commitType
  let header := if scope ≠ [] then header ++ lit "(" ++ scope ++ lit ")" else header
  header ++ lit ": " ++ TrimSpace description

/-- The footers collected at lines 292-301 of `main`. -/
def buildFooters (breakingChange issueRef workItem : Str) : List Str :=
  let footers : List Str := []
  let footers :=
    if breakingChange ≠ [] then footers ++ [lit "BREAKING CHANGE: " ++ breakingChange]
    else footers
  let footers := if issueRef ≠ [] then footers ++ [issueRef] else footers
  let footers := if workItem ≠ [] then footers ++ [lit "Refs " ++ workItem] else footers
  footers

/-- The message assembled at lines 279-306 of `main`. -/
def buildCommitMessage (commitType scope description body breakingChange issueRef workItem : Str) :
    Str :=
  let header := buildHeader commitType scope description
  let sections : List Str := [header]
  let sections := if body ≠ [] then sections ++ [body] else sections
  let footers := buildFooters breakingChange issueRef workItem
  let sections :=
    if footers.length > 0 then sections ++ [Join footers (lit "\n")] else sections
  Join sections (lit "\n\n")

/-! ## The message grammar, in the words of the specification -/

/-- Header: `<type>(<scope>): <description>` if scope is non-empty, else
`<type>: <description>`; the description is trimmed. -/
def specHeader (t s d : Str) : Str :=
  if s ≠ [] then t ++ lit "(" ++ s ++ lit "): " ++ TrimSpace d
  else t ++ lit ": " ++ TrimSpace d

/-- Footer lines in their fixed order, each present only if its text is non-empty. -/
def specFooterLines (k r w : Str) : List Str :=
  (if k ≠ [] then [lit "BREAKING CHANGE: " ++ k] else []) ++
  (if r ≠ [] then [r] else []) ++
  (if w ≠ [] then [lit "Refs " ++ w] else [])

/-- Paragraphs of the message: the header, the body if non-empty, the footer
block if it has at least one line. -/
def specParagraphs (t s d b k r w : Str) : List Str :=
  [specHeader t s d] ++ (if b ≠ [] then [b] else []) ++
  (if specFooterLines k r w ≠ [] then [(lit "\n").intercalate (specFooterLines k r w)] else [])

/-! ## The part of `encoding/json` the program uses

`json.MarshalIndent` is modelled for the type `LastInputs` (four strings and an
`int`), `json.Unmarshal` for a variable of that type: the document is checked
against the JSON grammar as a whole, then the members of its object are stored
into the fields in their order of appearance. -/

/-- The lowercase hexadecimal digit of `n < 16`. -/
def hexDigit (n : Nat) : GoRune :=
  .ch (if n < 10 then Char.ofNat (48 + n) else Char.ofNat (87 + n))

/-- How the encoder writes one unit of a string: a backslash before `"` and
before the backslash; the two-character escapes of backspace, form feed, line
feed, carriage return and tab; the six-character escape `u00XX` for the other
control characters and for `<`, `>`, `&`; the six-character escapes of U+2028
and U+2029; the escape of U+FFFD for a byte that is not valid UTF-8; every other
character as it is.  (Before Go 1.22 backspace and form feed were written as
`u0008` and `u000c`, which decode alike.) -/
def escapeRune : GoRune → Str
  | .bad _ => lit "\\ufffd"
  | .ch c =>
    if c = '"' then lit "\\\""
    else if c = '\\' then lit "\\\\"
    else if c.toNat = 8 then lit "\\b"
    else if c.toNat = 12 then lit "\\f"
    else if c = '\n' then lit "\\n"
    else if c = '\r' then lit "\\r"
    else if c = '\t' then lit "\\t"
    else if c.toNat < 32 ∨ c = '<' ∨ c = '>' ∨ c = '&' then
      lit "\\u00" ++ [hexDigit (c.toNat / 16), hexDigit (c.toNat % 16)]
    else if c.toNat = 0x2028 ∨ c.toNat = 0x2029 then
      lit "\\u202" ++ [hexDigit (c.toNat % 16)]
    else [.ch c]

/-- A string as a JSON string literal. -/
def quote (s : Str) : Str := lit "\"" ++ s.flatMap escapeRune ++ lit "\""

/-- `json.MarshalIndent(inputs, "", "  ")` for a `LastInputs` value. -/
def MarshalIndent (inputs : LastInputs) : Str :=
  lit "\x7b\n  \"workItem\": " ++ quote inputs.WorkItem ++
  lit ",\n  \"commitTypeIndex\": " ++ Itoa inputs.CommitTypeIndex ++
  lit ",\n  \"scope\": " ++ quote inputs.Scope ++
  lit ",\n  \"description\": " ++ quote inputs.Description ++
  lit ",\n  \"issueRef\": " ++ quote inputs.IssueRef ++
  lit "\n\x7d"

/-- JSON white space. -/
def isJsonSpace : GoRune → Bool
  | .ch c => c = ' ' || c = '\t' || c = '\r' || c = '\n'
  | .bad _ => false

/-- The input after leading JSON white space. -/
def skipSpace (s : Str) : Str := s.dropWhile isJsonSpace

/-- Value of a hexadecimal digit. -/
def hexVal : GoRune → Option Nat
  | .ch c =>
    if 48 ≤ c.toNat ∧ c.toNat ≤ 57 then some (c.toNat - 48)
    else if 97 ≤ c.toNat ∧ c.toNat ≤ 102 then some (c.toNat - 87)
    else if 65 ≤ c.toNat ∧ c.toNat ≤ 70 then some (c.toNat - 55)
    else none
  | .bad _ => none

/-- Value of four hexadecimal digits. -/
def hex4 (a b c d : GoRune) : Option Nat :=
  match hexVal a, hexVal b, hexVal c, hexVal d with
  | some x, some y, some z, some w => some (x * 4096 + y * 256 + z * 16 + w)
  | _, _, _, _ => none

/-- The character of a one-letter escape. -/
def simpleEscape (e : Char) : Option Char :=
  if e = '"' then some '"'
  else if e = '\\' then some '\\'
  else if e = '/' then some '/'
  else if e = 'b' then some (Char.ofNat 8)
  else if e = 'f' then some (Char.ofNat 12)
  else if e = 'n' then some '\n'
  else if e = 'r' then some '\r'
  else if e = 't' then some '\t'
  else none

/-- The low half of a surrogate pair, written as a `u` escape, at the head of
the input, if any. -/
def lowSurrogate : Str → Option Nat
  | .ch c1 :: .ch c2 :: a :: b :: c :: d :: _ =>
    if c1 = '\\' ∧ c2 = 'u' then
      match hex4 a b c d with
      | some v => if 0xDC00 ≤ v ∧ v < 0xE000 then some v else none
      | none => none
    else none
  | _ => none

/-- Decoding of a `u` escape, given the input after the `u`: the character and
the input after the escape.  The high half of a surrogate pair followed by the
escape of a low half decodes with it to one character; any other surrogate
decodes to U+FFFD. -/
def decodeUnicodeEscape : Str → Option (Char × Str)
  | a :: b :: c :: d :: rest =>
    match hex4 a b c d with
    | none => none
    | some v =>
      if 0xD800 ≤ v ∧ v < 0xE000 then
        match (if v < 0xDC00 then lowSurrogate rest else none) with
        | some v2 =>
          some (Char.ofNat (0x10000 + (v - 0xD800) * 0x400 + (v2 - 0xDC00)), rest.drop 6)
        | none => some (Char.ofNat 0xFFFD, rest)
      else some (Char.ofNat v, rest)
  | _ => none

/-- Decoding of an escape, given the input after the backslash. -/
def decodeEscape : Str → Option (Char × Str)
  | .ch e :: rest =>
    if e = 'u' then decodeUnicodeEscape rest
    else (simpleEscape e).map (fun x => (x, rest))
  | _ => none

/-- Decoding of a string literal after its opening quote: the value and the
input after the closing quote.  A raw control character is a syntax error; a
byte that is not valid UTF-8 decodes to U+FFFD.  Each turn consumes input, so
the counter, which starts at the length of the input, is never exhausted before
the input is. -/
def parseStringBody : Nat → Str → Option (Str × Str)
  | 0, _ => none
  | _ + 1, [] => none
  | fuel + 1, .bad _ :: rest =>
    (parseStringBody fuel rest).map (fun p => (GoRune.ch (Char.ofNat 0xFFFD) :: p.1, p.2))
  | fuel + 1, .ch c :: rest =>
    if c = '"' then some ([], rest)
    else if c = '\\' then
      match decodeEscape rest with
      | some (x, rest1) =>
        (parseStringBody fuel rest1).map (fun p => (GoRune.ch x :: p.1, p.2))
      | none => none
    else if c.toNat < 32 then none
    else (parseStringBody fuel rest).map (fun p => (GoRune.ch c :: p.1, p.2))

/-- A string literal after its opening quote. -/
def parseString (s : Str) : Option (Str × Str) := parseStringBody s.length s

/-- The digits at the head of the input, required to be at least one, and the
input after them. -/
def scanDigits (s : Str) : Option (Str × Str) :=
  if s.takeWhile isAsciiDigit = [] then none
  else some (s.takeWhile isAsciiDigit, s.dropWhile isAsciiDigit)

/-- The optional fraction `.digits` at the head of the input. -/
def scanFraction : Str → Option (Str × Str)
  | .ch c :: rest =>
    if c = '.' then (scanDigits rest).map (fun p => (GoRune.ch c :: p.1, p.2))
    else some ([], .ch c :: rest)
  | s => some ([], s)

/-- The optional exponent `e`, sign, digits at the head of the input. -/
def scanExponent : Str → Option (Str × Str)
  | .ch c :: rest =>
    if c = 'e' ∨ c = 'E' then
      match rest with
      | .ch g :: rest1 =>
        if g = '+' ∨ g = '-' then
          (scanDigits rest1).map (fun p => (GoRune.ch c :: GoRune.ch g :: p.1, p.2))
        else (scanDigits rest).map (fun p => (GoRune.ch c :: p.1, p.2))
      | _ => none
    else some ([], .ch c :: rest)
  | s => some ([], s)

/-- The optional minus sign at the head of a number, and the rest. -/
def splitMinus : Str → Str × Str
  | .ch c :: rest => if c = '-' then ([GoRune.ch c], rest) else ([], .ch c :: rest)
  | s => ([], s)

/-- A JSON number literal at the head of the input (`-`? integer part without
superfluous leading zero, fraction?, exponent?) and the input after it. -/
def scanNumber (s : Str) : Option (Str × Str) :=
  match scanDigits (splitMinus s).2 with
  | none => none
  | some (ds, r1) =>
    if 1 < ds.length ∧ ds.head? = some (GoRune.ch '0') then none
    else
      match scanFraction r1 with
      | none => none
      | some (fr, r2) =>
        match scanExponent r2 with
        | none => none
        | some (ex, r3) => some ((splitMinus s).1 ++ ds ++ fr ++ ex, r3)

/-- The JSON values. -/
inductive JValue
  | str (s : Str)
  | num (literal : Str)
  | null
  | bool (b : Bool)
  | arr (items : List JValue)
  | obj (members : List (Str × JValue))

/-- Whether `p` is at the head of `s`. -/
def startsWith (p s : Str) : Bool := p.isPrefixOf s

/-- A string, literal or number at the head of the input and the input after it. -/
def parseScalar (s : Str) : Option (JValue × Str) :=
  match s with
  | .ch c :: rest =>
    if c = '"' then (parseString rest).map (fun p => (JValue.str p.1, p.2))
    else if startsWith (lit "null") s then some (JValue.null, s.drop 4)
    else if startsWith (lit "true") s then some (JValue.bool true, s.drop 4)
    else if startsWith (lit "false") s then some (JValue.bool false, s.drop 5)
    else (scanNumber s).map (fun p => (JValue.num p.1, p.2))
  | _ => none

/-- The elements of an array up to the closing bracket and the input after it,
`value` reading one element; the counter bounds the number of elements by the
length of the input. -/
def parseElements (value : Str → Option (JValue × Str)) :
    Nat → Str → Option (List JValue × Str)
  | 0, _ => none
  | fuel + 1, s =>
    match value s with
    | none => none
    | some (v, r) =>
      match skipSpace r with
      | .ch c :: r1 =>
        if c = ',' then
          (parseElements value fuel (skipSpace r1)).map (fun p => (v :: p.1, p.2))
        else if c = ']' then some ([v], r1)
        else none
      | _ => none

/-- A member `"name": value` at the head of the input and the input after it,
`value` reading the value. -/
def parseMember (value : Str → Option (JValue × Str)) (s : Str) :
    Option ((Str × JValue) × Str) :=
  match s with
  | .ch c :: rest =>
    if c = '"' then
      match parseString rest with
      | none => none
      | some (key, r1) =>
        match skipSpace r1 with
        | .ch c2 :: r2 =>
          if c2 = ':' then
            (value (skipSpace r2)).map (fun p => ((key, p.1), p.2))
          else none
        | _ => none
    else none
  | _ => none

/-- The members of an object up to the closing brace and the input after it;
the counter bounds the number of members by the length of the input. -/
def parseMembers (value : Str → Option (JValue × Str)) :
    Nat → Str → Option (List (Str × JValue) × Str)
  | 0, _ => none
  | fuel + 1, s =>
    match parseMember value s with
    | none => none
    | some (m, r) =>
      match skipSpace r with
      | .ch c :: r1 =>
        if c = ',' then
          (parseMembers value fuel (skipSpace r1)).map (fun p => (m :: p.1, p.2))
        else if c = '\x7d' then some ([m], r1)
        else none
      | _ => none

/-- The nesting depth the decoder accepts (`maxNestingDepth` of the scanner). -/
def maxNestingDepth : Nat := 10000

/-- A value at the head of the input and the input after it; `depth` is the
number of arrays and objects that may still be opened. -/
def parseValue : Nat → Str → Option (JValue × Str)
  | 0, s => parseScalar s
  | depth + 1, .ch c :: rest =>
    if c = '[' then
      match skipSpace rest with
      | .ch c2 :: r1 =>
        if c2 = ']' then some (JValue.arr [], r1)
        else
          (parseElements (parseValue depth) rest.length (.ch c2 :: r1)).map
            (fun p => (JValue.arr p.1, p.2))
      | _ => none
    else if c = '\x7b' then
      match skipSpace rest with
      | .ch c2 :: r1 =>
        if c2 = '\x7d' then some (JValue.obj [], r1)
        else
          (parseMembers (parseValue depth) rest.length (.ch c2 :: r1)).map
            (fun p => (JValue.obj p.1, p.2))
      | _ => none
    else parseScalar (.ch c :: rest)
  | _ + 1, _ => none

/-- The one value that makes up the whole document, white space around it
allowed. -/
def parseDocument (data : Str) : Option JValue :=
  match parseValue maxNestingDepth (skipSpace data) with
  | some (v, rest) => if skipSpace rest = [] then some v else none
  | none => none

/-- The names of the fields of `LastInputs` in JSON (its struct tags). -/
def fieldNames : List Str :=
  [lit "workItem", lit "commitTypeIndex", lit "scope", lit "description", lit "issueRef"]

/-- Case folding as far as it decides a match with a field name: a member name
is folded rune by rune to the least rune of its simple-folding class, and the
field names being ASCII, only the classes of ASCII letters matter; these hold,
besides the two cases of the letter, the Kelvin sign U+212A (with `k`) and the
long s U+017F (with `s`).  ASCII letters fold to upper case. -/
def foldRune : GoRune → GoRune
  | .ch c =>
    if c.toNat < 128 then .ch c.toUpper
    else if c.toNat = 0x212A then .ch 'K'
    else if c.toNat = 0x17F then .ch 'S'
    else .ch c
  | .bad b => .bad b

/-- The folded form of a name. -/
def foldName (s : Str) : Str := s.map foldRune

/-- The field a member name stands for: the one with exactly that name, or else
the one with that name up to case. -/
def findField (key : Str) : Option Str :=
  match fieldNames.find? (fun n => n = key) with
  | some n => some n
  | none => fieldNames.find? (fun n => foldName n = foldName key)

/-- Storing a string value into a string field: `null` leaves the field alone,
any value but a string is a type error. -/
def asString (v : JValue) (old : Str) : Option Str :=
  match v with
  | .str s => some s
  | .null => some old
  | _ => none

/-- Storing a number into the `int` field: the literal has to be an integer that
fits an `int`; `null` leaves the field alone, any other value is a type error. -/
def asInt (v : JValue) (old : Int) : Option Int :=
  match v with
  | .num l => Atoi l
  | .null => some old
  | _ => none

/-- Storing one member into the record; a member that stands for no field is
skipped, a type error (`none`) makes the whole decoding fail. -/
def setField (r : LastInputs) (m : Str × JValue) : Option LastInputs :=
  match findField m.1 with
  | none => some r
  | some name =>
    if name = lit "workItem" then
      (asString m.2 r.WorkItem).map (fun s => { r with WorkItem := s })
    else if name = lit "commitTypeIndex" then
      (asInt m.2 r.CommitTypeIndex).map (fun i => { r with CommitTypeIndex := i })
    else if name = lit "scope" then
      (asString m.2 r.Scope).map (fun s => { r with Scope := s })
    else if name = lit "description" then
      (asString m.2 r.Description).map (fun s => { r with Description := s })
    else
      (asString m.2 r.IssueRef).map (fun s => { r with IssueRef := s })

/-- Storing the members in their order of appearance. -/
def setFields (r : LastInputs) : List (Str × JValue) → Option LastInputs
  | [] => some r
  | m :: ms =>
    match setField r m with
    | some r1 => setFields r1 ms
    | none => none

/-- `json.Unmarshal(data, &last)` for `var last LastInputs`; `none` is an error.
The document has to be one JSON value; an object is stored member by member,
`null` stores nothing, any other value is a type error. -/
def Unmarshal (data : Str) : Option LastInputs :=
  match parseDocument data with
  | some (.obj ms) => setFields LastInputs.zero ms
  | some .null => some LastInputs.zero
  | _ => none

/-! ## The preference store of `main.go`

The state of the file system is the content of the cache file at
`getCacheFilePath()`, `none` when `os.ReadFile` fails on it.  The program
discards the errors of `os.MkdirAll` and `os.WriteFile`; whether the write
succeeds, and what a failed write leaves in the file, is up to the environment. -/

/-- The outcome of writing the cache file: success, or a failure that leaves
the file with some content (the old one, a truncated one, or none). -/
inductive WriteOutcome
  | succeeds
  | fails (left : Option Str)

/-- The function `loadLastInputs` of `main.go`. -/
def loadLastInputs (cache : Option Str) : LastInputs :=
  match cache with
  | none => LastInputs.zero
  | some data =>
    match Unmarshal data with
    | none => LastInputs.zero
    | some last => last

/-- The function `saveLastInputs` of `main.go`: the content of the cache file
after the call, given the outcome of the write. -/
def saveLastInputs (write : WriteOutcome) (inputs : LastInputs) : Option Str :=
  match write with
  | .succeeds => some (MarshalIndent inputs)
  | .fails left => left

/-! ## The session: `main`

What `main` reads from its environment is gathered in `World`; what it leaves
behind in `Outcome`.  A session whose retry loops never end has no outcome. -/

/-- The environment of one run. -/
structure World where
  /-- Whether `git diff --cached --quiet` returns an error, that is, whether
  something is staged. -/
  staged : Bool
  /-- Result of `getCurrentBranch()` (empty when git fails). -/
  branch : Str
  /-- Content of the cache file, `none` when it cannot be read. -/
  cache : Option Str
  /-- Outcome of the write of the cache file. -/
  write : WriteOutcome
  /-- The lines typed on standard input. -/
  stdin : Input
  /-- Whether `git commit -m message` succeeds. -/
  commitSucceeds : Str → Bool

/-- The state of a session when the final confirmation is prompted (line 322). -/
structure Draft where
  workItem : Str
  commitType : Str
  defaultIndex : Int
  scope : Str
  description : Str
  body : Str
  breakingChange : Str
  issueRef : Str
  commitMessage : Str
  /-- Content of the cache file at that moment. -/
  cache : Option Str
  /-- Input not yet read at that moment. -/
  stdin : Input
  deriving DecidableEq

/-- What a finished session leaves behind. -/
structure Outcome where
  exitCode : Nat
  /-- Content of the cache file. -/
  cache : Option Str
  /-- The messages `git commit -m` was run with, in order. -/
  commits : List Str
  /-- Input left unread. -/
  stdin : Input
  deriving DecidableEq

/-- Lines 203-314 of `main`: everything from loading the preferences to saving
them, just before the final confirmation. -/
def collect (U : Unicode) (w : World) : Option Draft :=
  let lastInputs := loadLastInputs w.cache
  let branchSuggestion : Str :=
    if w.branch ≠ [] then extractWorkItemFromBranch U w.branch else []
  match workItemLoop U lastInputs branchSuggestion w.stdin with
  | none => none
  | some (workItem, in1) =>
    match commitTypeLoop lastInputs in1 with
    | none => none
    | some ((commitType, defaultIndex), in2) =>
      let scope := (scopeStep lastInputs in2).1
      let in3 := (scopeStep lastInputs in2).2
      match descriptionLoop U lastInputs.Description in3 with
      | none => none
      | some (description, in4) =>
        let wantBody := readYesNo U in4
        let bodyRead : Str × Input :=
          if wantBody.1 then readMultiline wantBody.2 else ([], wantBody.2)
        let wantBreaking := readYesNo U bodyRead.2
        let breakingRead : Str × Input :=
          if wantBreaking.1 then readMultiline wantBreaking.2 else ([], wantBreaking.2)
        let issueRef := (issueRefStep lastInputs breakingRead.2).1
        let in9 := (issueRefStep lastInputs breakingRead.2).2
        let commitMessage :=
          buildCommitMessage commitType scope description bodyRead.1 breakingRead.1 issueRef
            workItem
        let cache :=
          saveLastInputs w.write
            { WorkItem := workItem, CommitTypeIndex := defaultIndex, Scope := scope,
              Description := description, IssueRef := issueRef }
        some
          { workItem := workItem, commitType := commitType, defaultIndex := defaultIndex,
            scope := scope, description := description, body := bodyRead.1,
            breakingChange := breakingRead.1, issueRef := issueRef,
            commitMessage := commitMessage, cache := cache, stdin := in9 }

/-- Lines 321-338 of `main`: the final confirmation and the commit. -/
def confirmAndCommit (U : Unicode) (w : World) (d : Draft) : Outcome :=
  let confirm := ToLower U (readLine d.stdin).1
  if ToLower U confirm ≠ lit "y" ∧ ToLower U confirm ≠ lit "yes" then
    { exitCode := 0, cache := d.cache, commits := [], stdin := (readLine d.stdin).2 }
  else if w.commitSucceeds d.commitMessage then
    { exitCode := 0, cache := d.cache, commits := [d.commitMessage],
      stdin := (readLine d.stdin).2 }
  else
    { exitCode := 1, cache := d.cache, commits := [d.commitMessage],
      stdin := (readLine d.stdin).2 }

/-- The function `main` of `main.go`. -/
def main (U : Unicode) (w : World) : Option Outcome :=
  if !w.staged then
    some { exitCode := 1, cache := w.cache, commits := [], stdin := w.stdin }
  else
    match collect U w with
    | none => none
    | some d => some (confirmAndCommit U w d)

/-! ## Auxiliary notions of the statements -/

/-- The case tables restricted to ASCII, every other rune left alone: an
instance of the assumptions made on the tables, used for concrete runs. -/
def asciiCase : Unicode where
  toLower := fun c => if 65 ≤ c.toNat ∧ c.toNat ≤ 90 then Char.ofNat (c.toNat + 32) else c
  isLower := Char.isLower
  toLower_ascii := fun _ _ => rfl
  isLower_ascii := fun _ _ => rfl
  toLower_toLower := by
    intro c
    have key : ∀ n : Nat, 65 ≤ n → n ≤ 90 → (Char.ofNat (n + 32)).toNat = n + 32 := by
      intro n h1 h2
      interval_cases n <;> rfl
    by_cases h : 65 ≤ c.toNat ∧ c.toNat ≤ 90
    · have hk := key c.toNat h.1 h.2
      have hn : ¬ (65 ≤ (Char.ofNat (c.toNat + 32)).toNat ∧
          (Char.ofNat (c.toNat + 32)).toNat ≤ 90) := by
        rw [hk]; omega
      simp only [h, and_self, if_true, hn, if_false]
    · simp only [h, if_false]

/-- A sample run: nothing saved yet, on the branch `feature/BCDS-77-login`; the
user accepts the suggested work item, picks type 1, enters a scope and a
description, declines body and breaking change, gives no issue and confirms. -/
def sampleWorld : World where
  staged := true
  branch := lit "feature/BCDS-77-login"
  cache := none
  write := .succeeds
  stdin := [lit "", lit "1", lit "api", lit "add endpoint", lit "n", lit "n", lit "", lit "y"]
  commitSucceeds := fun _ => true

/-- The state of the sample run at its final confirmation. -/
def sampleDraft : Draft where
  workItem := lit "bcds-77-login"
  commitType := lit "feat"
  defaultIndex := 1
  scope := lit "api"
  description := lit "add endpoint"
  body := []
  breakingChange := []
  issueRef := []
  commitMessage := lit "feat(api): add endpoint\n\nRefs bcds-77-login"
  cache := saveLastInputs .succeeds ⟨lit "bcds-77-login", 1, lit "api", lit "add endpoint", []⟩
  stdin := [lit "y"]

/-- A run in which the write of the cache file fails and leaves the file as it
was: the file holds an older record, whose index lies outside the catalog; the
user types every value anew (the type as ` 3`, with a space in front) and
confirms. -/
def staleWorld : World where
  staged := true
  branch := lit "main"
  cache := some (MarshalIndent ⟨lit "bcds-5", 99, lit "ui", lit "fix typo", []⟩)
  write := .fails (some (MarshalIndent ⟨lit "bcds-5", 99, lit "ui", lit "fix typo", []⟩))
  stdin := [lit "bcds-9", lit " 3", lit "core", lit "update docs", lit "n", lit "n",
    lit "Closes #9", lit "y"]
  commitSucceeds := fun _ => true

/-- The state of that run at its final confirmation. -/
def staleDraft : Draft where
  workItem := lit "bcds-9"
  commitType := lit "docs"
  defaultIndex := 3
  scope := lit "core"
  description := lit "update docs"
  body := []
  breakingChange := []
  issueRef := lit "Closes #9"
  commitMessage := lit "docs(core): update docs\n\nCloses #9\nRefs bcds-9"
  cache := some (MarshalIndent ⟨lit "bcds-5", 99, lit "ui", lit "fix typo", []⟩)
  stdin := [lit "y"]

/-- The entry read at the `k`-th turn of a retry loop: the line typed then, as
`readLine` returns it, or the default when that line is blank (past the end of
the input every line is blank). -/
def entryAt (defaultVal : Str) (inp : Input) (k : Nat) : Str :=
  (readLineWithDefault defaultVal (inp.drop k)).1

/-- The entry of the `k`-th turn of a retry loop, in the words of the claims:
the line typed then, its surrounding white space removed, or the default when
that line is blank (past the end of the input every line is empty). -/
def typedEntry (defaultVal : Str) (inp : Input) (k : Nat) : Str :=
  if TrimSpace (inp.getD k []) = [] then defaultVal else TrimSpace (inp.getD k [])

/-- The verdict of one answer to a yes/no prompt: after trimming and
lowercasing, `y` and `yes` mean yes, the empty answer, `n` and `no` mean no, and
anything else is no verdict. -/
def verdict (U : Unicode) (answer : Str) : Option Bool :=
  let a := ToLower U (TrimSpace answer)
  if a = lit "y" ∨ a = lit "yes" then some true
  else if a = [] ∨ a = lit "n" ∨ a = lit "no" then some false
  else none

/-- A unit of a string as the JSON encoder coerces it to valid UTF-8: a byte
that is not valid UTF-8 becomes U+FFFD. -/
def coerceRune : GoRune → GoRune
  | .ch c => .ch c
  | .bad _ => .ch (Char.ofNat 0xFFFD)

/-- The string as the JSON encoder coerces it to valid UTF-8. -/
def coerceUTF8 (s : Str) : Str := s.map coerceRune

/-- Valid UTF-8: no stray byte. -/
def validUTF8 (s : Str) : Bool :=
  s.all (fun r => match r with
    | .ch _ => true
    | .bad _ => false)


/-! # Properties -/

/-! ## Regular expressions: greedy iteration -/

theorem starAll_succ (f : Str → List Str) :
    ∀ (n : Nat) (s : Str), s.length ≤ n → starAll f (n + 1) s = starAll f n s := by
  intro n
  induction n with
  | zero =>
    intro s hs
    have hnil : s = [] := List.length_eq_zero.mp (Nat.le_zero.mp hs)
    subst hnil
    simp [starAll]
  | succ n ih =>
    intro s hs
    have key : ∀ m ∈ (f s).filter (fun s' => decide (s'.length < s.length)),
        starAll f (n + 1) m = starAll f n m := by
      intro m hm
      have hlt : m.length < s.length := by simpa using (List.mem_filter.mp hm).2
      exact ih m (by omega)
    calc starAll f (n + 1 + 1) s
        = ((f s).filter (fun s' => decide (s'.length < s.length))).flatMap (starAll f (n + 1))
            ++ [s] := rfl
      _ = ((f s).filter (fun s' => decide (s'.length < s.length))).flatMap (starAll f n)
            ++ [s] := by rw [List.flatMap_congr key]
      _ = starAll f (n + 1) s := rfl

theorem starAll_fuel (f : Str → List Str) (k : Nat) :
    ∀ (s : Str), starAll f (s.length + k) s = starAll f s.length s := by
  induction k with
  | zero => intro s; rfl
  | succ k ih =>
    intro s
    rw [← ih s]
    exact starAll_succ f (s.length + k) s (by omega)

/-- All ways of iterating `f` from `s`, with as much fuel as `s` is long. -/
theorem starAll_unfold (f : Str → List Str) (s : Str) :
    starAll f s.length s =
      ((f s).filter (fun s' => decide (s'.length < s.length))).flatMap
        (fun m => starAll f m.length m) ++ [s] := by
  cases s with
  | nil => simp [starAll]
  | cons x xs =>
    have key : ∀ m ∈ (f (x :: xs)).filter (fun s' => decide (s'.length < (x :: xs).length)),
        starAll f xs.length m = starAll f m.length m := by
      intro m hm
      have hlt : m.length < (x :: xs).length := by simpa using (List.mem_filter.mp hm).2
      have hle : m.length ≤ xs.length := by simpa using Nat.lt_succ_iff.mp hlt
      obtain ⟨k, hk⟩ := Nat.exists_eq_add_of_le hle
      rw [hk]
      exact starAll_fuel f k m
    show ((f (x :: xs)).filter (fun s' => decide (s'.length < (x :: xs).length))).flatMap
        (starAll f xs.length) ++ [x :: xs] = _
    rw [List.flatMap_congr key]

/-! ## Regular expressions: the matches of each construct -/

theorem rune_eq_ascii {r : GoRune} {c : Char} (hc : c.toNat < 128) :
    r.rune = c ↔ r = .ch c := by
  cases r with
  | ch d => simp [GoRune.rune]
  | bad b =>
    simp only [GoRune.rune, reduceCtorEq, iff_false]
    intro h
    rw [← h] at hc
    revert hc
    decide

theorem inClass_digit (r : GoRune) : inClass [('0', '9')] r.rune = isAsciiDigit r := by
  cases r with
  | ch c =>
    have h0 : ('0' : Char).toNat = 48 := rfl
    have h9 : ('9' : Char).toNat = 57 := rfl
    simp [inClass, GoRune.rune, isAsciiDigit, h0, h9]
  | bad b => rfl

theorem inClass_lowerAlnum (r : GoRune) :
    inClass [('a', 'z'), ('0', '9')] r.rune = isLowerAlnum r := by
  cases r with
  | ch c =>
    have h0 : ('0' : Char).toNat = 48 := rfl
    have h9 : ('9' : Char).toNat = 57 := rfl
    have ha : ('a' : Char).toNat = 97 := rfl
    have hz : ('z' : Char).toNat = 122 := rfl
    simp [inClass, GoRune.rune, isLowerAlnum, h0, h9, ha, hz]
  | bad b => rfl

theorem mem_matchAll_char (t : Str) (c : Char) (s y : Str) :
    y ∈ matchAll t (.char c) s ↔ ∃ x, s = x :: y ∧ x.rune = c := by
  cases s with
  | nil => simp [matchAll]
  | cons x xs =>
    by_cases h : x.rune = c
    · simp only [matchAll, h, if_true, List.mem_singleton, List.cons.injEq]
      constructor
      · intro hy; exact ⟨x, ⟨rfl, hy.symm⟩, h⟩
      · rintro ⟨x', ⟨-, hxs⟩, -⟩; exact hxs.symm
    · simp only [matchAll, h, if_false, List.not_mem_nil, List.cons.injEq, false_iff]
      rintro ⟨x', ⟨hx, -⟩, hr⟩
      exact h (hx ▸ hr)

theorem mem_matchAll_cls (t : Str) (rs : List (Char × Char)) (s y : Str) :
    y ∈ matchAll t (.cls rs) s ↔ ∃ x, s = x :: y ∧ inClass rs x.rune = true := by
  cases s with
  | nil => simp [matchAll]
  | cons x xs =>
    by_cases h : inClass rs x.rune = true
    · simp only [matchAll, h, if_true, List.mem_singleton, List.cons.injEq]
      constructor
      · intro hy; exact ⟨x, ⟨rfl, hy.symm⟩, h⟩
      · rintro ⟨x', ⟨-, hxs⟩, -⟩; exact hxs.symm
    · simp only [matchAll, h, List.cons.injEq]
      constructor
      · intro hy; simp at hy
      · rintro ⟨x', ⟨hx, -⟩, hr⟩
        exact absurd (hx ▸ hr) h

theorem mem_matchAll_cat (t : Str) (a b : Regex) (s y : Str) :
    y ∈ matchAll t (.cat a b) s ↔ ∃ m, m ∈ matchAll t a s ∧ y ∈ matchAll t b m := by
  simp [matchAll, List.mem_flatMap]

theorem mem_loop (f : Str → List Str) (s y : Str) :
    y ∈ starAll f s.length s ↔
      y = s ∨ ∃ m, m ∈ f s ∧ m.length < s.length ∧ y ∈ starAll f m.length m := by
  rw [starAll_unfold]
  simp only [List.mem_append, List.mem_flatMap, List.mem_filter, decide_eq_true_eq,
    List.mem_singleton]
  constructor
  · rintro (⟨m, ⟨hm, hlt⟩, hy⟩ | h)
    · exact Or.inr ⟨m, hm, hlt, hy⟩
    · exact Or.inl h
  · rintro (h | ⟨m, hm, hlt, hy⟩)
    · exact Or.inr h
    · exact Or.inl ⟨m, ⟨hm, hlt⟩, hy⟩

/-- Iterating a class: any run of characters of the class may be consumed. -/
theorem mem_loop_cls (t : Str) (rs : List (Char × Char)) :
    ∀ (s y : Str), y ∈ starAll (matchAll t (.cls rs)) s.length s ↔
      ∃ w, s = w ++ y ∧ ∀ r ∈ w, inClass rs r.rune = true := by
  intro s
  induction s with
  | nil =>
    intro y
    rw [mem_loop]
    simp only [matchAll, List.not_mem_nil, false_and, exists_false, or_false]
    constructor
    · intro h; exact ⟨[], by simp [h], by simp⟩
    · rintro ⟨w, hw, -⟩
      exact (List.append_eq_nil.mp hw.symm).2
  | cons x xs ih =>
    intro y
    rw [mem_loop]
    constructor
    · rintro (h | ⟨m, hm, -, hy⟩)
      · exact ⟨[], by simp [h], by simp⟩
      · obtain ⟨x', hx', hcls⟩ := (mem_matchAll_cls t rs _ _).mp hm
        obtain ⟨rfl, rfl⟩ := List.cons.inj hx'
        obtain ⟨w, hw, hall⟩ := (ih y).mp hy
        refine ⟨x :: w, by simp [hw], ?_⟩
        intro r hr
        rcases List.mem_cons.mp hr with rfl | hr
        · exact hcls
        · exact hall r hr
    · rintro ⟨w, hw, hall⟩
      cases w with
      | nil => left; simpa using hw.symm
      | cons a w =>
        right
        obtain ⟨rfl, rfl⟩ := List.cons.inj hw
        refine ⟨w ++ y, (mem_matchAll_cls t rs _ _).mpr ⟨x, rfl, hall x (by simp)⟩, by simp, ?_⟩
        exact (ih y).mpr ⟨w, rfl, fun r hr => hall r (List.mem_cons_of_mem _ hr)⟩

/-- A greedy `+` on a class consumes any non-empty run of the class. -/
theorem mem_matchAll_plus_cls (t : Str) (rs : List (Char × Char)) (s y : Str) :
    y ∈ matchAll t (.plus (.cls rs)) s ↔
      ∃ w, w ≠ [] ∧ s = w ++ y ∧ ∀ r ∈ w, inClass rs r.rune = true := by
  simp only [matchAll, List.mem_flatMap]
  constructor
  · rintro ⟨m, hm, hy⟩
    obtain ⟨x, rfl, hx⟩ := (mem_matchAll_cls t rs _ _).mp hm
    obtain ⟨w, rfl, hall⟩ := (mem_loop_cls t rs m y).mp hy
    refine ⟨x :: w, by simp, by simp, ?_⟩
    intro r hr
    rcases List.mem_cons.mp hr with rfl | hr
    · exact hx
    · exact hall r hr
  · rintro ⟨w, hne, rfl, hall⟩
    cases w with
    | nil => exact absurd rfl hne
    | cons a w =>
      refine ⟨w ++ y, (mem_matchAll_cls t rs _ _).mpr ⟨a, rfl, hall a (by simp)⟩, ?_⟩
      exact (mem_loop_cls t rs _ y).mpr ⟨w, rfl, fun r hr => hall r (List.mem_cons_of_mem _ hr)⟩

/-! ## The matches of the two patterns -/

/-- The group `-[a-z0-9]+` of both patterns. -/
theorem mem_matchAll_group (t : Str) (s y : Str) :
    y ∈ matchAll t (.cat (.char '-') (.plus Regex.lowerAlnum)) s ↔
      ∃ g, g ≠ [] ∧ (∀ r ∈ g, isLowerAlnum r = true) ∧ s = GoRune.ch '-' :: (g ++ y) := by
  rw [mem_matchAll_cat]
  constructor
  · rintro ⟨m, hm, hy⟩
    obtain ⟨x, rfl, hx⟩ := (mem_matchAll_char t _ _ _).mp hm
    obtain ⟨g, hne, rfl, hall⟩ := (mem_matchAll_plus_cls t _ _ _).mp hy
    have hx' : x = .ch '-' := (rune_eq_ascii (by decide)).mp hx
    exact ⟨g, hne, fun r hr => by rw [← inClass_lowerAlnum]; exact hall r hr, by rw [hx']⟩
  · rintro ⟨g, hne, hall, rfl⟩
    refine ⟨g ++ y, (mem_matchAll_char t _ _ _).mpr ⟨_, rfl, rfl⟩, ?_⟩
    exact (mem_matchAll_plus_cls t _ _ _).mpr
      ⟨g, hne, rfl, fun r hr => by rw [inClass_lowerAlnum]; exact hall r hr⟩

/-- The loop `(-[a-z0-9]+)*` of both patterns. -/
theorem mem_loop_group (t : Str) :
    ∀ (n : Nat) (s : Str), s.length ≤ n → ∀ y : Str,
      (y ∈ starAll (matchAll t (.cat (.char '-') (.plus Regex.lowerAlnum))) s.length s ↔
        ∃ gs : List Str, (∀ g ∈ gs, g ≠ [] ∧ ∀ r ∈ g, isLowerAlnum r = true) ∧
          s = gs.flatMap (fun g => GoRune.ch '-' :: g) ++ y) := by
  intro n
  induction n with
  | zero =>
    intro s hs y
    have hnil : s = [] := List.length_eq_zero.mp (Nat.le_zero.mp hs)
    subst hnil
    simp only [List.length_nil, starAll, List.mem_singleton]
    constructor
    · intro h; exact ⟨[], by simp, by simp [h]⟩
    · rintro ⟨gs, -, h⟩
      exact (List.append_eq_nil.mp h.symm).2
  | succ n ih =>
    intro s hs y
    rw [mem_loop]
    constructor
    · rintro (h | ⟨m, hm, hlt, hy⟩)
      · exact ⟨[], by simp, by simp [h]⟩
      · obtain ⟨g, hne, hall, rfl⟩ := (mem_matchAll_group t _ _).mp hm
        obtain ⟨gs, hgs, hm'⟩ := (ih m (by omega) y).mp hy
        refine ⟨g :: gs, ?_, ?_⟩
        · intro g' hg'
          rcases List.mem_cons.mp hg' with rfl | hg'
          · exact ⟨hne, hall⟩
          · exact hgs g' hg'
        · simp [hm']
    · rintro ⟨gs, hgs, rfl⟩
      cases gs with
      | nil => left; simp
      | cons g gs =>
        right
        obtain ⟨hne, hall⟩ := hgs g (by simp)
        refine ⟨gs.flatMap (fun g => GoRune.ch '-' :: g) ++ y,
          (mem_matchAll_group t _ _).mpr ⟨g, hne, hall, by simp⟩,
          by simp only [List.flatMap_cons, List.cons_append, List.append_assoc, List.length_cons,
            List.length_append]; omega, ?_⟩
        have hlen : (gs.flatMap (fun g => GoRune.ch '-' :: g) ++ y).length ≤ n := by
          simp only [List.flatMap_cons, List.cons_append, List.append_assoc, List.length_cons,
            List.length_append] at hs ⊢
          omega
        exact (ih _ hlen y).mpr ⟨gs, fun g' hg' => hgs g' (List.mem_cons_of_mem _ hg'), rfl⟩

theorem mem_matchAll_bcds (t : Str) (s y : Str) :
    y ∈ matchAll t (Regex.str "bcds-") s ↔ s = lit "bcds-" ++ y := by
  have hre : Regex.str "bcds-" = .cat (.char 'b') (.cat (.char 'c') (.cat (.char 'd')
      (.cat (.char 's') (.char '-')))) := rfl
  have hlit : lit "bcds-" = [.ch 'b', .ch 'c', .ch 'd', .ch 's', .ch '-'] := rfl
  rw [hre, hlit]
  simp only [mem_matchAll_cat, mem_matchAll_char]
  constructor
  · rintro ⟨m1, ⟨x1, rfl, h1⟩, m2, ⟨x2, rfl, h2⟩, m3, ⟨x3, rfl, h3⟩, m4, ⟨x4, rfl, h4⟩,
      x5, rfl, h5⟩
    rw [(rune_eq_ascii (by decide)).mp h1, (rune_eq_ascii (by decide)).mp h2,
      (rune_eq_ascii (by decide)).mp h3, (rune_eq_ascii (by decide)).mp h4,
      (rune_eq_ascii (by decide)).mp h5]
    rfl
  · rintro rfl
    exact ⟨_, ⟨_, rfl, rfl⟩, _, ⟨_, rfl, rfl⟩, _, ⟨_, rfl, rfl⟩, _, ⟨_, rfl, rfl⟩, _, rfl, rfl⟩

/-- The matches of `bcds-\d+(?:-[a-z0-9]+)*` at a position are the prefixes of
the remaining text that are work-item texts. -/
theorem mem_matchAll_branchPattern (t : Str) (s y : Str) :
    y ∈ matchAll t branchPattern s ↔ ∃ m, s = m ++ y ∧ WorkItemText m := by
  unfold branchPattern
  rw [mem_matchAll_cat]
  constructor
  · rintro ⟨m1, h1, h2⟩
    rw [mem_matchAll_bcds] at h1
    rw [mem_matchAll_cat] at h2
    obtain ⟨m2, hd, hg⟩ := h2
    obtain ⟨ds, hne, rfl, hds⟩ := (mem_matchAll_plus_cls t _ _ _).mp hd
    have hg' : y ∈ starAll (matchAll t (.cat (.char '-') (.plus Regex.lowerAlnum)))
        m2.length m2 := by simpa [matchAll] using hg
    obtain ⟨gs, hgs, rfl⟩ := (mem_loop_group t m2.length m2 (Nat.le_refl _) y).mp hg'
    refine ⟨lit "bcds-" ++ ds ++ gs.flatMap (fun g => GoRune.ch '-' :: g), by simp [h1],
      ds, gs, rfl, hne, fun r hr => by rw [← inClass_digit]; exact hds r hr, hgs⟩
  · rintro ⟨m, rfl, ds, gs, rfl, hne, hds, hgs⟩
    refine ⟨ds ++ gs.flatMap (fun g => GoRune.ch '-' :: g) ++ y,
      (mem_matchAll_bcds t _ _).mpr (by simp), ?_⟩
    rw [mem_matchAll_cat]
    refine ⟨gs.flatMap (fun g => GoRune.ch '-' :: g) ++ y,
      (mem_matchAll_plus_cls t _ _ _).mpr
        ⟨ds, hne, by simp, fun r hr => (inClass_digit r).trans (hds r hr)⟩, ?_⟩
    have := (mem_loop_group t _ _ (Nat.le_refl _) y).mpr ⟨gs, hgs, rfl⟩
    simpa [matchAll] using this

/-! ## Unanchored search -/

theorem search_none (t : Str) (re : Regex) :
    ∀ x : Str, search t re x = none →
      ∀ pre u : Str, x = pre ++ u → matchAll t re u = [] := by
  intro x
  induction x with
  | nil =>
    intro h pre u hx
    obtain ⟨-, rfl⟩ := List.append_eq_nil.mp hx.symm
    cases hm : matchAll t re [] with
    | nil => rfl
    | cons a l => simp [search, hm] at h
  | cons a x ih =>
    intro h pre u hx
    cases hm : matchAll t re (a :: x) with
    | cons b l => simp [search, hm] at h
    | nil =>
      have hrest : search t re x = none := by simpa [search, hm] using h
      cases pre with
      | nil => rw [List.nil_append] at hx; rw [← hx]; exact hm
      | cons p pre =>
        obtain ⟨-, hx'⟩ := List.cons.inj hx
        exact ih hrest pre u hx'

theorem search_some (t : Str) (re : Regex) :
    ∀ x s s' : Str, search t re x = some (s, s') →
      ∃ pre : Str, x = pre ++ s ∧ (matchAll t re s).head? = some s' ∧
        ∀ pre' u : Str, x = pre' ++ u → pre'.length < pre.length → matchAll t re u = [] := by
  intro x
  induction x with
  | nil =>
    intro s s' h
    cases hm : matchAll t re [] with
    | nil => simp [search, hm] at h
    | cons b l =>
      simp only [search, hm, List.head?_cons, Option.map_some', Option.some.injEq,
        Prod.mk.injEq] at h
      obtain ⟨rfl, rfl⟩ := h
      exact ⟨[], rfl, by simp [hm], fun pre' u _ hlt => absurd hlt (by simp)⟩
  | cons a x ih =>
    intro s s' h
    cases hm : matchAll t re (a :: x) with
    | cons b l =>
      simp only [search, hm, List.head?_cons, Option.some.injEq, Prod.mk.injEq] at h
      obtain ⟨rfl, rfl⟩ := h
      exact ⟨[], rfl, by simp [hm], fun pre' u _ hlt => absurd hlt (by simp)⟩
    | nil =>
      have hrest : search t re x = some (s, s') := by simpa [search, hm] using h
      obtain ⟨pre, hx, hhead, hmin⟩ := ih s s' hrest
      refine ⟨a :: pre, by simp [hx], hhead, ?_⟩
      intro pre' u hpu hlt
      cases pre' with
      | nil => rw [List.nil_append] at hpu; rw [← hpu]; exact hm
      | cons p pre' =>
        obtain ⟨-, hx'⟩ := List.cons.inj hpu
        exact hmin pre' u hx' (by simpa using hlt)

/-- The matches of `^bcds-\d+(-[a-z0-9]+)*$`: at the beginning of the text only,
and of the whole text only. -/
theorem mem_matchAll_workItemPattern (t : Str) (s y : Str) :
    y ∈ matchAll t workItemPattern s ↔
      s.length = t.length ∧ y = [] ∧ [] ∈ matchAll t branchPattern s := by
  unfold workItemPattern branchPattern
  simp only [mem_matchAll_cat]
  constructor
  · rintro ⟨m0, h0, m1, h1, m2, h2, m3, h3, h4⟩
    have hb : m0 = s ∧ s.length = t.length := by
      by_cases hl : s.length = t.length
      · simp [matchAll, hl] at h0; exact ⟨h0, hl⟩
      · simp [matchAll, hl] at h0
    obtain ⟨rfl, hlen⟩ := hb
    have he : y = m3 ∧ m3 = [] := by
      by_cases hl : m3.length = 0
      · simp [matchAll, hl] at h4; exact ⟨h4, List.length_eq_zero.mp hl⟩
      · simp [matchAll, hl] at h4
    obtain ⟨rfl, rfl⟩ := he
    exact ⟨hlen, rfl, m1, h1, m2, h2, h3⟩
  · rintro ⟨hlen, rfl, m1, h1, m2, h2, h3⟩
    exact ⟨s, by simp [matchAll, hlen], m1, h1, m2, h2, [], h3, by simp [matchAll]⟩

/-- What `validateWorkItem` decides, in terms of the matches of the pattern
without its anchors. -/
theorem validateWorkItem_iff (s : Str) :
    validateWorkItem s = true ↔ WorkItemText s := by
  unfold validateWorkItem Regex.MatchString
  constructor
  · intro h
    obtain ⟨⟨u, u'⟩, hs⟩ := Option.isSome_iff_exists.mp h
    obtain ⟨pre, hpre, hhead, -⟩ := search_some s workItemPattern s u u' hs
    have hmem : u' ∈ matchAll s workItemPattern u := List.mem_of_mem_head? hhead
    obtain ⟨hlen, -, hb⟩ := (mem_matchAll_workItemPattern s u u').mp hmem
    obtain ⟨m, hm, hw⟩ := (mem_matchAll_branchPattern s u []).mp hb
    have hpre' : pre = [] := by
      have := congrArg List.length hpre
      simp only [List.length_append] at this
      exact List.length_eq_zero.mp (by omega)
    subst hpre'
    simp only [List.nil_append] at hpre
    rw [hpre, hm, List.append_nil]
    exact hw
  · intro hw
    have hb : [] ∈ matchAll s branchPattern s :=
      (mem_matchAll_branchPattern s s []).mpr ⟨s, by simp, hw⟩
    have hmem : [] ∈ matchAll s workItemPattern s :=
      (mem_matchAll_workItemPattern s s []).mpr ⟨rfl, rfl, hb⟩
    cases hs : search s workItemPattern s with
    | some p => rfl
    | none =>
      have := search_none s workItemPattern s hs [] s rfl
      rw [this] at hmem
      exact absurd hmem (List.not_mem_nil _)

/-! ## Preference order: the preferred match is the longest one -/

/-- The matches of a greedy loop over a class, in order: the longest run first,
every other one stopping before a character of the class. -/
theorem loop_cls_shape (t : Str) (rs : List (Char × Char)) :
    ∀ s : Str, ∃ (h : Str) (rest : List Str),
      starAll (matchAll t (.cls rs)) s.length s = h :: rest ∧
      (∀ u ∈ h :: rest, u.length ≤ s.length) ∧
      ∀ u ∈ rest, h.length < u.length ∧ ∃ x u', u = x :: u' ∧ inClass rs x.rune = true := by
  intro s
  induction s with
  | nil => exact ⟨[], [], rfl, by simp, by simp⟩
  | cons x xs ih =>
    rw [starAll_unfold]
    by_cases hp : inClass rs x.rune = true
    · obtain ⟨h, rest, e, hlen, hrest⟩ := ih
      refine ⟨h, rest ++ [x :: xs], by simp [matchAll, hp, e], ?_, ?_⟩
      · intro u hu
        simp only [List.mem_cons, List.mem_append, List.mem_singleton, List.not_mem_nil,
          or_false] at hu
        rcases hu with rfl | hu | rfl
        · have := hlen u (by simp); simp; omega
        · have := hlen u (by simp [hu]); simp; omega
        · simp
      · intro u hu
        rcases List.mem_append.mp hu with hu | hu
        · exact hrest u hu
        · have hux : u = x :: xs := by simpa using hu
          subst hux
          have := hlen h (by simp)
          exact ⟨by simp; omega, x, xs, rfl, hp⟩
    · exact ⟨x :: xs, [], by simp [matchAll, hp], by simp, by simp⟩

theorem plus_cls_shape (t : Str) (rs : List (Char × Char)) (s : Str) :
    matchAll t (.plus (.cls rs)) s = [] ∨ ∃ (h : Str) (rest : List Str),
      matchAll t (.plus (.cls rs)) s = h :: rest ∧
      (∀ u ∈ h :: rest, u.length < s.length) ∧
      ∀ u ∈ rest, h.length < u.length ∧ ∃ x u', u = x :: u' ∧ inClass rs x.rune = true := by
  cases s with
  | nil => left; simp [matchAll]
  | cons x xs =>
    by_cases hp : inClass rs x.rune = true
    · right
      obtain ⟨h, rest, e, hlen, hrest⟩ := loop_cls_shape t rs xs
      refine ⟨h, rest, by simp [matchAll, hp, e], ?_, hrest⟩
      intro u hu
      have := hlen u hu
      simp only [List.length_cons]
      omega
    · left; simp [matchAll, hp]

theorem group_shape (t : Str) (s : Str) :
    matchAll t (.cat (.char '-') (.plus Regex.lowerAlnum)) s = [] ∨
    ∃ (h : Str) (rest : List Str),
      matchAll t (.cat (.char '-') (.plus Regex.lowerAlnum)) s = h :: rest ∧
      (∀ u ∈ h :: rest, u.length < s.length) ∧
      ∀ u ∈ rest, h.length < u.length ∧ ∃ x u', u = x :: u' ∧ isLowerAlnum x = true := by
  cases s with
  | nil => left; simp [matchAll]
  | cons x xs =>
    by_cases hx : x.rune = '-'
    · have e : matchAll t (.cat (.char '-') (.plus Regex.lowerAlnum)) (x :: xs)
          = matchAll t (.plus Regex.lowerAlnum) xs := by
        simp [matchAll, hx]
      rw [e]
      rcases plus_cls_shape t _ xs with h0 | ⟨h, rest, e', hlen, hrest⟩
      · left; exact h0
      · right
        refine ⟨h, rest, e', ?_, ?_⟩
        · intro u hu
          have := hlen u hu
          simp only [List.length_cons]
          omega
        · intro u hu
          obtain ⟨hl, y, u', hy, hc⟩ := hrest u hu
          exact ⟨hl, y, u', hy, by rw [← inClass_lowerAlnum]; exact hc⟩
    · left; simp [matchAll, hx]

/-- Before a character of `[a-z0-9]` no group starts, so the loop stops there. -/
theorem loop_group_of_alnum (t : Str) (x : GoRune) (xs : Str) (hx : isLowerAlnum x = true) :
    starAll (matchAll t (.cat (.char '-') (.plus Regex.lowerAlnum))) (x :: xs).length (x :: xs)
      = [x :: xs] := by
  have hne : ¬ x.rune = '-' := by
    intro h
    rw [(rune_eq_ascii (by decide)).mp h] at hx
    revert hx
    decide
  rw [starAll_unfold]
  simp [matchAll, hne]

theorem flatMap_loop_group_rest (t : Str) (rest : List Str)
    (h : ∀ u ∈ rest, ∃ x u', u = x :: u' ∧ isLowerAlnum x = true) :
    rest.flatMap (fun m => starAll (matchAll t (.cat (.char '-') (.plus Regex.lowerAlnum)))
      m.length m) = rest := by
  induction rest with
  | nil => rfl
  | cons u rest ih =>
    obtain ⟨x, u', rfl, hx⟩ := h u (List.mem_cons_self _ _)
    rw [List.flatMap_cons, loop_group_of_alnum t x u' hx,
      ih (fun v hv => h v (List.mem_cons_of_mem _ hv))]
    rfl

/-- The preferred match of the loop `(-[a-z0-9]+)*` leaves the shortest remainder. -/
theorem loop_group_headMin (t : Str) :
    ∀ (n : Nat) (s : Str), s.length ≤ n → ∃ (h : Str) (rest : List Str),
      starAll (matchAll t (.cat (.char '-') (.plus Regex.lowerAlnum))) s.length s = h :: rest ∧
      h.length ≤ s.length ∧ ∀ u ∈ rest, h.length ≤ u.length := by
  intro n
  induction n with
  | zero =>
    intro s hs
    have hnil : s = [] := List.length_eq_zero.mp (Nat.le_zero.mp hs)
    subst hnil
    exact ⟨[], [], rfl, by simp, by simp⟩
  | succ n ih =>
    intro s hs
    rw [starAll_unfold]
    rcases group_shape t s with h0 | ⟨h, rest, e, hlen, hrest⟩
    · exact ⟨s, [], by simp [h0], by simp, by simp⟩
    · have hfilter : (h :: rest).filter (fun s' => decide (s'.length < s.length)) = h :: rest :=
        List.filter_eq_self.mpr (fun u hu => by simpa using hlen u hu)
      have hh : h.length < s.length := hlen h (by simp)
      obtain ⟨h0, rest0, e0, hl0, hr0⟩ := ih h (by omega)
      refine ⟨h0, rest0 ++ rest ++ [s], ?_, by omega, ?_⟩
      · rw [e, hfilter, List.flatMap_cons, e0,
          flatMap_loop_group_rest t rest (fun u hu => (hrest u hu).2)]
        simp
      · intro u hu
        simp only [List.mem_append, List.mem_singleton] at hu
        rcases hu with (hu | hu) | rfl
        · exact hr0 u hu
        · have := (hrest u hu).1; omega
        · omega

theorem char_shape (t : Str) (c : Char) (s : Str) :
    matchAll t (.char c) s = [] ∨ ∃ m, matchAll t (.char c) s = [m] := by
  cases s with
  | nil => left; rfl
  | cons x xs =>
    by_cases hx : x.rune = c
    · right; exact ⟨xs, by simp [matchAll, hx]⟩
    · left; simp [matchAll, hx]

theorem cat_shape (t : Str) (a b : Regex) (s : Str)
    (ha : matchAll t a s = [] ∨ ∃ m, matchAll t a s = [m])
    (hb : ∀ m, matchAll t b m = [] ∨ ∃ y, matchAll t b m = [y]) :
    matchAll t (.cat a b) s = [] ∨ ∃ y, matchAll t (.cat a b) s = [y] := by
  rcases ha with h | ⟨m, h⟩
  · left; simp [matchAll, h]
  · rcases hb m with h' | ⟨y, h'⟩
    · left; simp [matchAll, h, h']
    · right; exact ⟨y, by simp [matchAll, h, h']⟩

theorem bcds_shape (t : Str) (s : Str) :
    matchAll t (Regex.str "bcds-") s = [] ∨ ∃ m, matchAll t (Regex.str "bcds-") s = [m] := by
  have hre : Regex.str "bcds-" = .cat (.char 'b') (.cat (.char 'c') (.cat (.char 'd')
      (.cat (.char 's') (.char '-')))) := rfl
  rw [hre]
  exact cat_shape t _ _ s (char_shape t _ s) (fun m1 =>
    cat_shape t _ _ m1 (char_shape t _ m1) (fun m2 =>
      cat_shape t _ _ m2 (char_shape t _ m2) (fun m3 =>
        cat_shape t _ _ m3 (char_shape t _ m3) (fun m4 => char_shape t _ m4))))

/-- The preferred match of `bcds-\d+(?:-[a-z0-9]+)*` at a position leaves the
shortest remainder: it is the longest match there. -/
theorem branchPattern_headMin (t : Str) (s h : Str)
    (hh : (matchAll t branchPattern s).head? = some h) :
    ∀ y ∈ matchAll t branchPattern s, h.length ≤ y.length := by
  have e : matchAll t branchPattern s =
      (matchAll t (Regex.str "bcds-") s).flatMap (fun m1 =>
        (matchAll t (.plus Regex.digit) m1).flatMap (fun m =>
          starAll (matchAll t (.cat (.char '-') (.plus Regex.lowerAlnum))) m.length m)) := rfl
  rw [e] at hh ⊢
  rcases bcds_shape t s with h0 | ⟨m1, h1⟩
  · simp [h0] at hh
  · rw [h1] at hh ⊢
    simp only [List.flatMap_cons, List.flatMap_nil, List.append_nil] at hh ⊢
    rcases plus_cls_shape t [('0', '9')] m1 with hd | ⟨d, rest, ed, -, hrest⟩
    · rw [show Regex.digit = .cls [('0', '9')] from rfl, hd] at hh
      simp at hh
    · rw [show Regex.digit = .cls [('0', '9')] from rfl, ed] at hh ⊢
      obtain ⟨h0, rest0, e0, hl0, hr0⟩ := loop_group_headMin t d.length d (Nat.le_refl _)
      have hrest' : ∀ u ∈ rest, ∃ x u', u = x :: u' ∧ isLowerAlnum x = true := by
        intro u hu
        obtain ⟨-, x, u', hxu, hx⟩ := hrest u hu
        refine ⟨x, u', hxu, ?_⟩
        rw [inClass_digit] at hx
        cases x with
        | ch c => simp [isAsciiDigit] at hx; simp [isLowerAlnum, hx]
        | bad b => simp [isAsciiDigit] at hx
      rw [List.flatMap_cons, e0, flatMap_loop_group_rest t rest hrest'] at hh ⊢
      simp only [List.cons_append, List.head?_cons, Option.some.injEq] at hh
      subst hh
      intro y hy
      simp only [List.cons_append, List.mem_cons, List.mem_append] at hy
      rcases hy with rfl | hy | hy
      · exact Nat.le_refl _
      · exact hr0 y hy
      · have := (hrest y hy).1; omega

/-! ## Lowercasing of ASCII text -/

theorem ToLower_ascii (U : Unicode) (s : Str) (h : ∀ r ∈ s, r.rune.toNat < 128) :
    ToLower U s = s.map (fun r => GoRune.ch r.rune.toLower) := by
  unfold ToLower
  apply List.map_congr_left
  intro r hr
  rw [U.toLower_ascii r.rune (h r hr)]

theorem ToLower_ToLower (U : Unicode) (s : Str) : ToLower U (ToLower U s) = ToLower U s := by
  unfold ToLower
  rw [List.map_map]
  apply List.map_congr_left
  intro r _
  simp [GoRune.rune, U.toLower_toLower]

theorem WorkItemText_ne_nil {m : Str} (h : WorkItemText m) : m ≠ [] := by
  obtain ⟨ds, gs, rfl, -, -, -⟩ := h
  have hlit : lit "bcds-" = [.ch 'b', .ch 'c', .ch 'd', .ch 's', .ch '-'] := rfl
  simp [hlit]

/-- What `extractWorkItemFromBranch` returns, in terms of the work-item texts
inside the lowercased branch name. -/
theorem extractWorkItemFromBranch_cases (U : Unicode) (b : Str) :
    (∃ pre m post : Str, ToLower U b = pre ++ m ++ post ∧ WorkItemText m ∧
        extractWorkItemFromBranch U b = m ∧
        (∀ pre' m' post' : Str, ToLower U b = pre' ++ m' ++ post' → WorkItemText m' →
          pre.length ≤ pre'.length) ∧
        (∀ m' post' : Str, m ++ post = m' ++ post' → WorkItemText m' →
          m'.length ≤ m.length)) ∨
    ((¬ ∃ pre m post : Str, ToLower U b = pre ++ m ++ post ∧ WorkItemText m) ∧
        extractWorkItemFromBranch U b = ToLower U b) := by
  cases hs : search (ToLower U b) branchPattern (ToLower U b) with
  | none =>
    right
    have hno := search_none _ _ _ hs
    refine ⟨?_, ?_⟩
    · rintro ⟨pre, m, post, hb, hw⟩
      have hmem : post ∈ matchAll (ToLower U b) branchPattern (m ++ post) :=
        (mem_matchAll_branchPattern _ _ _).mpr ⟨m, rfl, hw⟩
      rw [hno pre (m ++ post) (by rw [hb, List.append_assoc])] at hmem
      exact List.not_mem_nil _ hmem
    · simp [extractWorkItemFromBranch, Regex.FindString, hs]
  | some p =>
    left
    obtain ⟨s, s'⟩ := p
    obtain ⟨pre, hpre, hhead, hmin⟩ := search_some _ _ _ s s' hs
    have hmem : s' ∈ matchAll (ToLower U b) branchPattern s := List.mem_of_mem_head? hhead
    obtain ⟨m, hm, hw⟩ := (mem_matchAll_branchPattern _ _ _).mp hmem
    have hfind : branchPattern.FindString (ToLower U b) = m := by
      simp [Regex.FindString, hs, hm]
    refine ⟨pre, m, s', by rw [hpre, hm, List.append_assoc], hw, ?_, ?_, ?_⟩
    · simp [extractWorkItemFromBranch, hfind, WorkItemText_ne_nil hw]
    · intro pre' m' post' hb' hw'
      by_contra hlt
      have hnil := hmin pre' (m' ++ post') (by rw [hb', List.append_assoc]) (by omega)
      have hmem' : post' ∈ matchAll (ToLower U b) branchPattern (m' ++ post') :=
        (mem_matchAll_branchPattern _ _ _).mpr ⟨m', rfl, hw'⟩
      rw [hnil] at hmem'
      exact List.not_mem_nil _ hmem'
    · intro m' post' he hw'
      have hmem' : post' ∈ matchAll (ToLower U b) branchPattern s :=
        (mem_matchAll_branchPattern _ _ _).mpr ⟨m', by rw [hm, he], hw'⟩
      have hle := branchPattern_headMin _ _ _ hhead post' hmem'
      have hlen := congrArg List.length he
      simp only [List.length_append] at hlen
      omega

theorem extract_example_match (U : Unicode) :
    extractWorkItemFromBranch U (lit "feature/BCDS-77-login") = lit "bcds-77-login" := by
  have h : ToLower U (lit "feature/BCDS-77-login") = lit "feature/bcds-77-login" := by
    rw [ToLower_ascii U _ (by decide)]
    decide
  unfold extractWorkItemFromBranch
  rw [h]
  decide

theorem extract_example_fallback (U : Unicode) :
    extractWorkItemFromBranch U (lit "main") = lit "main" := by
  have h : ToLower U (lit "main") = lit "main" := by
    rw [ToLower_ascii U _ (by decide)]
    decide
  unfold extractWorkItemFromBranch
  rw [h]
  decide

/-! ## Claims on the validators, the branch hint and the message -/

/-- Claim C1: for every string `s`, `validateWorkItem s` is true if and only if
the whole of `s` is `bcds-` followed by one or more ASCII digits, followed by
zero or more groups each made of `-` and one or more characters from `a`-`z` or
`0`-`9`; `bcds-1` is accepted, `bcds-` and `bcds-1_2` are rejected. -/
theorem validateWorkItem_grammar :
    (∀ s : Str, validateWorkItem s = true ↔ WorkItemText s) ∧
    validateWorkItem (lit "bcds-1") = true ∧
    validateWorkItem (lit "bcds-") = false ∧
    validateWorkItem (lit "bcds-1_2") = false :=
  ⟨validateWorkItem_iff, by decide, by decide, by decide⟩

/-- What `validateShortDescription` decides: the trimmed description has
between 1 and 50 bytes, starts with a lowercase letter and does not end with a
period. -/
theorem validateShortDescription_iff (U : Unicode) (s : Str) :
    validateShortDescription U s = true ↔
      1 ≤ len (TrimSpace s) ∧ len (TrimSpace s) ≤ 50 ∧
      (∃ r rest, TrimSpace s = r :: rest ∧ U.isLower r.rune = true) ∧
      HasSuffix (TrimSpace s) (lit ".") = false := by
  unfold validateShortDescription
  by_cases hl : len (TrimSpace s) = 0 ∨ len (TrimSpace s) > 50
  · simp only [hl, if_true, Bool.false_eq_true, false_iff]
    rintro ⟨h1, h2, -, -⟩
    omega
  · simp only [hl, if_false]
    cases ht : TrimSpace s with
    | nil =>
      simp
    | cons r rest =>
      rw [ht] at hl
      have h1 : 1 ≤ len (r :: rest) ∧ len (r :: rest) ≤ 50 := by omega
      by_cases hr : U.isLower r.rune = true
      · by_cases hs : HasSuffix (r :: rest) (lit ".") = true
        · simp [hr, hs]
        · simp only [hr, hs, Bool.not_true, Bool.false_eq_true, if_false, true_iff]
          exact ⟨h1.1, h1.2, ⟨r, rest, rfl, hr⟩, trivial⟩
      · simp only [hr, Bool.not_false, if_true, Bool.false_eq_true, false_iff]
        rintro ⟨-, -, ⟨r', rest', he, hr'⟩, -⟩
        obtain ⟨rfl, -⟩ := List.cons.inj he
        exact hr hr'

/-- Claim C2, at the input on which the code departs from it: the description
`fix 修复用户登录页面在移动端显示异常的问题` has 23 characters, starts with the
lowercase letter `f` and does not end with a period, yet `validateShortDescription`
rejects it, because its length in bytes, 61, is what the code compares with 50. -/
theorem validateShortDescription_counts_bytes (U : Unicode) :
    validateShortDescription U (lit "fix 修复用户登录页面在移动端显示异常的问题") = false ∧
    (TrimSpace (lit "fix 修复用户登录页面在移动端显示异常的问题")).length = 23 ∧
    len (TrimSpace (lit "fix 修复用户登录页面在移动端显示异常的问题")) = 61 ∧
    (∃ rest, TrimSpace (lit "fix 修复用户登录页面在移动端显示异常的问题") = GoRune.ch 'f' :: rest ∧
      U.isLower 'f' = true) ∧
    HasSuffix (TrimSpace (lit "fix 修复用户登录页面在移动端显示异常的问题")) (lit ".") = false := by
  have ht : TrimSpace (lit "fix 修复用户登录页面在移动端显示异常的问题")
      = lit "fix 修复用户登录页面在移动端显示异常的问题" := by decide
  have hlen : len (lit "fix 修复用户登录页面在移动端显示异常的问题") = 61 := by decide
  refine ⟨?_, ?_, ?_, ?_, ?_⟩
  · cases hv : validateShortDescription U (lit "fix 修复用户登录页面在移动端显示异常的问题") with
    | false => rfl
    | true =>
      have := ((validateShortDescription_iff U _).mp hv).2.1
      rw [ht, hlen] at this
      omega
  · rw [ht]; decide
  · rw [ht]; exact hlen
  · rw [ht]
    exact ⟨_, rfl, by rw [U.isLower_ascii 'f' (by decide)]; rfl⟩
  · rw [ht]; decide

/-- The message assembled by `main` is the paragraphs of the specification
joined by one blank line. -/
theorem buildCommitMessage_eq (t s d b k r w : Str) :
    buildCommitMessage t s d b k r w = (lit "\n\n").intercalate (specParagraphs t s d b k r w) := by
  have hf : buildFooters k r w = specFooterLines k r w := by
    unfold buildFooters specFooterLines
    by_cases hk : k = [] <;> by_cases hr : r = [] <;> by_cases hw : w = [] <;> simp [hk, hr, hw]
  have hh : buildHeader t s d = specHeader t s d := by
    unfold buildHeader specHeader
    by_cases hs : s = [] <;> simp [hs, lit]
  unfold buildCommitMessage specParagraphs Join
  simp only [hf, hh]
  by_cases hb : b = [] <;> by_cases hl : specFooterLines k r w = [] <;>
    simp [hb, hl, List.length_pos]

/-- Claim C3: for every commit type `t`, scope `s`, description `d`, body `b`,
breaking-change note `k`, issue reference `r` and work item `w`, the assembled
message is the paragraphs (header; `b` only if non-empty; footer block only if
it has a line) joined by exactly one blank line, with the header `t(s): d'` or
`t: d'` (`d'` being `d` trimmed) and the footer lines `BREAKING CHANGE: k`, `r`,
`Refs w`, each only if non-empty, in that order, joined by a line feed; for
`feat`, `api`, `add endpoint`, no body, note or reference, and `bcds-42` it is
exactly `feat(api): add endpoint\n\nRefs bcds-42`. -/
theorem buildCommitMessage_grammar :
    (∀ t s d b k r w : Str,
      buildCommitMessage t s d b k r w =
        (lit "\n\n").intercalate
          ([if s ≠ [] then t ++ lit "(" ++ s ++ lit "): " ++ TrimSpace d
            else t ++ lit ": " ++ TrimSpace d] ++
           (if b ≠ [] then [b] else []) ++
           (if specFooterLines k r w ≠ [] then
              [(lit "\n").intercalate (specFooterLines k r w)] else [])) ∧
      specFooterLines k r w =
        (if k ≠ [] then [lit "BREAKING CHANGE: " ++ k] else []) ++
        (if r ≠ [] then [r] else []) ++
        (if w ≠ [] then [lit "Refs " ++ w] else [])) ∧
    buildCommitMessage (lit "feat") (lit "api") (lit "add endpoint") [] [] [] (lit "bcds-42")
      = lit "feat(api): add endpoint\n\nRefs bcds-42" :=
  ⟨fun t s d b k r w => ⟨buildCommitMessage_eq t s d b k r w, rfl⟩, by decide⟩

/-- Claim C4: for every branch name `b`, `extractWorkItemFromBranch b` is the
leftmost work-item text inside the lowercased name, extended greedily (no longer
work-item text starts at the same place), when the lowercased name contains one,
and the lowercased name itself otherwise; `feature/BCDS-77-login` gives
`bcds-77-login` and `main` gives `main`. -/
theorem extractWorkItemFromBranch_leftmost_longest (U : Unicode) :
    (∀ b : Str,
      (∃ pre m post : Str, ToLower U b = pre ++ m ++ post ∧ WorkItemText m ∧
          extractWorkItemFromBranch U b = m ∧
          (∀ pre' m' post' : Str, ToLower U b = pre' ++ m' ++ post' → WorkItemText m' →
            pre.length ≤ pre'.length) ∧
          (∀ m' post' : Str, m ++ post = m' ++ post' → WorkItemText m' →
            m'.length ≤ m.length)) ∨
      ((¬ ∃ pre m post : Str, ToLower U b = pre ++ m ++ post ∧ WorkItemText m) ∧
          extractWorkItemFromBranch U b = ToLower U b)) ∧
    extractWorkItemFromBranch U (lit "feature/BCDS-77-login") = lit "bcds-77-login" ∧
    extractWorkItemFromBranch U (lit "main") = lit "main" :=
  ⟨extractWorkItemFromBranch_cases U, extract_example_match U, extract_example_fallback U⟩

/-! ## The prompts -/

theorem entryAt_zero_cons (d l : Str) (inp : Input) :
    entryAt d (l :: inp) 0 = (readLineWithDefault d (l :: inp)).1 := rfl

theorem entryAt_succ_cons (d l : Str) (inp : Input) (k : Nat) :
    entryAt d (l :: inp) (k + 1) = entryAt d inp k := rfl

theorem entryAt_nil (d : Str) (k : Nat) : entryAt d [] k = (readLineWithDefault d []).1 := by
  simp [entryAt]

/-- A retry loop ends exactly when some entry is accepted, and then yields the
first accepted entry, having read the input up to it. -/
theorem promptLoop_eq_some_iff {α : Type} (d : Str) (accept : Str → Option α) :
    ∀ (inp : Input) (a : α) (rest : Input),
      promptLoop d accept inp = some (a, rest) ↔
        ∃ k, accept (entryAt d inp k) = some a ∧
          (∀ j, j < k → accept (entryAt d inp j) = none) ∧ rest = inp.drop (k + 1) := by
  intro inp
  induction inp with
  | nil =>
    intro a rest
    simp only [promptLoop, entryAt_nil, List.drop_nil]
    constructor
    · intro h
      cases he : accept (readLineWithDefault d []).1 with
      | none => simp [he] at h
      | some a0 =>
        simp only [he, Option.map_some', Option.some.injEq, Prod.mk.injEq] at h
        exact ⟨0, by rw [h.1], fun j hj => absurd hj (Nat.not_lt_zero j), h.2.symm⟩
    · rintro ⟨k, hk, -, rfl⟩
      simp [hk]
  | cons l inp ih =>
    intro a rest
    cases he : accept (readLineWithDefault d (l :: inp)).1 with
    | some a0 =>
      simp only [promptLoop, he, Option.some.injEq, Prod.mk.injEq]
      constructor
      · rintro ⟨rfl, rfl⟩
        exact ⟨0, he, fun j hj => absurd hj (Nat.not_lt_zero j), rfl⟩
      · rintro ⟨k, hk, hbefore, rfl⟩
        cases k with
        | zero =>
          rw [entryAt_zero_cons, he] at hk
          exact ⟨Option.some.inj hk, rfl⟩
        | succ k =>
          have := hbefore 0 (Nat.succ_pos k)
          rw [entryAt_zero_cons, he] at this
          exact absurd this (by simp)
    | none =>
      simp only [promptLoop, he]
      rw [ih a rest]
      constructor
      · rintro ⟨k, hk, hbefore, rfl⟩
        refine ⟨k + 1, hk, ?_, rfl⟩
        intro j hj
        cases j with
        | zero => exact he
        | succ j => exact hbefore j (Nat.lt_of_succ_lt_succ hj)
      · rintro ⟨k, hk, hbefore, rfl⟩
        cases k with
        | zero =>
          rw [entryAt_zero_cons, he] at hk
          exact absurd hk (by simp)
        | succ k =>
          exact ⟨k, hk, fun j hj => hbefore (j + 1) (Nat.succ_lt_succ hj), rfl⟩

theorem acceptWorkItem_eq_some (U : Unicode) (entry w : Str) :
    acceptWorkItem U entry = some w ↔
      validateWorkItem (ToLower U entry) = true ∧ w = ToLower U entry := by
  unfold acceptWorkItem
  by_cases h : validateWorkItem (ToLower U entry) = true
  · simp [h, eq_comm]
  · simp [h]

theorem acceptWorkItem_eq_none (U : Unicode) (entry : Str) :
    acceptWorkItem U entry = none ↔ validateWorkItem (ToLower U entry) = false := by
  unfold acceptWorkItem
  by_cases h : validateWorkItem (ToLower U entry) = true
  · simp [h]
  · simp [h]

theorem dropWhile_of_append {p : GoRune → Bool} :
    ∀ (t z : Str), List.dropWhile p (t ++ z) = t ++ z → List.dropWhile p t = t := by
  intro t z h
  cases t with
  | nil => rfl
  | cons x t' =>
    by_cases hx : p x = true
    · rw [List.cons_append, List.dropWhile_cons_of_pos hx] at h
      have hlen := congrArg List.length h
      have hle := (List.dropWhile_sublist p (l := t' ++ z)).length_le
      simp only [List.length_cons] at hlen
      omega
    · rw [List.dropWhile_cons_of_neg hx]

theorem TrimSpace_TrimSpace (s : Str) : TrimSpace (TrimSpace s) = TrimSpace s := by
  unfold TrimSpace
  obtain ⟨z, hz⟩ := List.rdropWhile_prefix (p := isSpace) (l := s.dropWhile isSpace)
  have h1 : List.dropWhile isSpace ((s.dropWhile isSpace).rdropWhile isSpace)
      = (s.dropWhile isSpace).rdropWhile isSpace := by
    apply dropWhile_of_append _ z
    rw [hz]
    exact List.dropWhile_idempotent _ _
  rw [h1, List.rdropWhile_idempotent]

/-- What `readLineWithDefault` returns at the `k`-th turn is the entry in the
words of the claims. -/
theorem entryAt_eq_typedEntry (d : Str) :
    ∀ (inp : Input) (k : Nat), entryAt d inp k = typedEntry d inp k := by
  intro inp
  induction inp with
  | nil =>
    intro k
    rw [entryAt_nil]
    simp only [typedEntry, List.getD_nil]
    rfl
  | cons l inp ih =>
    intro k
    cases k with
    | zero =>
      rw [entryAt_zero_cons]
      simp only [typedEntry, List.getD_cons_zero, readLineWithDefault, readLine,
        TrimSpace_TrimSpace]
      by_cases h : TrimSpace l = [] <;> simp [h]
    | succ k =>
      rw [entryAt_succ_cons, ih k]
      simp only [typedEntry, List.getD_cons_succ]

/-- A retry loop ends exactly when some entry is accepted. -/
theorem promptLoop_isSome_iff {α : Type} (d : Str) (accept : Str → Option α) (inp : Input) :
    (promptLoop d accept inp).isSome = true ↔
      ∃ k, (accept (entryAt d inp k)).isSome = true := by
  constructor
  · intro h
    obtain ⟨⟨a, rest⟩, hp⟩ := Option.isSome_iff_exists.mp h
    obtain ⟨k, hk, -, -⟩ := (promptLoop_eq_some_iff d accept inp a rest).mp hp
    exact ⟨k, by rw [hk]; rfl⟩
  · intro h
    obtain ⟨a, ha⟩ := Option.isSome_iff_exists.mp (Nat.find_spec h)
    have hp : promptLoop d accept inp = some (a, inp.drop (Nat.find h + 1)) := by
      refine (promptLoop_eq_some_iff d accept inp a _).mpr ⟨Nat.find h, ha, ?_, rfl⟩
      intro j hj
      have hn := Nat.find_min h hj
      cases hj' : accept (entryAt d inp j) with
      | none => rfl
      | some b => rw [hj'] at hn; exact absurd rfl hn
    rw [hp]
    rfl

theorem acceptWorkItem_ascii (U : Unicode) (entry : Str)
    (h : ∀ r ∈ entry, r.rune.toNat < 128) :
    acceptWorkItem U entry = acceptWorkItem asciiCase entry := by
  unfold acceptWorkItem
  rw [ToLower_ascii U _ h, ToLower_ascii asciiCase _ h]

/-- On ASCII input the work-item loop does not depend on the case tables. -/
theorem workItemLoop_ascii (U : Unicode) (lastInputs : LastInputs) (branchSuggestion : Str)
    (hd : ∀ r ∈ defaultWorkItem lastInputs branchSuggestion, r.rune.toNat < 128) :
    ∀ inp : Input, (∀ l ∈ inp, ∀ r ∈ TrimSpace l, r.rune.toNat < 128) →
      workItemLoop U lastInputs branchSuggestion inp =
        workItemLoop asciiCase lastInputs branchSuggestion inp := by
  have hentry : ∀ inp : Input, (∀ l ∈ inp, ∀ r ∈ TrimSpace l, r.rune.toNat < 128) →
      ∀ r ∈ (readLineWithDefault (defaultWorkItem lastInputs branchSuggestion) inp).1,
        r.rune.toNat < 128 := by
    intro inp hi
    have he := entryAt_eq_typedEntry (defaultWorkItem lastInputs branchSuggestion) inp 0
    have h0 : entryAt (defaultWorkItem lastInputs branchSuggestion) inp 0 =
        (readLineWithDefault (defaultWorkItem lastInputs branchSuggestion) inp).1 := by
      simp [entryAt]
    rw [← h0, he]
    unfold typedEntry
    by_cases hb : TrimSpace (inp.getD 0 []) = []
    · rw [if_pos hb]; exact hd
    · rw [if_neg hb]
      cases inp with
      | nil => exact absurd rfl hb
      | cons l rest => exact hi l (List.mem_cons_self _ _)
  intro inp
  unfold workItemLoop
  induction inp with
  | nil =>
    intro hi
    simp only [promptLoop]
    rw [acceptWorkItem_ascii U _ (hentry [] hi)]
  | cons l rest ih =>
    intro hi
    simp only [promptLoop]
    rw [acceptWorkItem_ascii U _ (hentry (l :: rest) hi),
      ih (fun m hm => hi m (List.mem_cons_of_mem _ hm))]

/-- The work-item loop in terms of the entries: it ends at the first entry
that is valid once lowercased, with that lowercased form. -/
theorem workItemLoop_eq_some_iff (U : Unicode) (lastInputs : LastInputs)
    (branchSuggestion : Str) (inp : Input) (w : Str) (rest : Input) :
    workItemLoop U lastInputs branchSuggestion inp = some (w, rest) ↔
      ∃ k : Nat,
        validateWorkItem
          (ToLower U (typedEntry (if lastInputs.WorkItem = [] then branchSuggestion
            else lastInputs.WorkItem) inp k)) = true ∧
        (∀ j, j < k → validateWorkItem
          (ToLower U (typedEntry (if lastInputs.WorkItem = [] then branchSuggestion
            else lastInputs.WorkItem) inp j)) = false) ∧
        w = ToLower U (typedEntry (if lastInputs.WorkItem = [] then branchSuggestion
            else lastInputs.WorkItem) inp k) ∧
        validateWorkItem w = true ∧
        rest = inp.drop (k + 1) := by
  unfold workItemLoop defaultWorkItem
  rw [promptLoop_eq_some_iff]
  simp only [entryAt_eq_typedEntry]
  constructor
  · rintro ⟨k, hk, hbefore, hrest⟩
    obtain ⟨hv, hw⟩ := (acceptWorkItem_eq_some U _ _).mp hk
    exact ⟨k, hv, fun j hj => (acceptWorkItem_eq_none U _).mp (hbefore j hj), hw,
      by rw [hw]; exact hv, hrest⟩
  · rintro ⟨k, hv, hbefore, hw, -, hrest⟩
    exact ⟨k, (acceptWorkItem_eq_some U _ _).mpr ⟨hv, hw⟩,
      fun j hj => (acceptWorkItem_eq_none U _).mpr (hbefore j hj), hrest⟩

/-- The work-item loop ends exactly when some entry is valid once lowercased. -/
theorem workItemLoop_isSome_iff (U : Unicode) (lastInputs : LastInputs)
    (branchSuggestion : Str) (inp : Input) :
    (workItemLoop U lastInputs branchSuggestion inp).isSome = true ↔
      ∃ k : Nat, validateWorkItem
        (ToLower U (typedEntry (if lastInputs.WorkItem = [] then branchSuggestion
          else lastInputs.WorkItem) inp k)) = true := by
  unfold workItemLoop defaultWorkItem
  rw [promptLoop_isSome_iff]
  simp only [entryAt_eq_typedEntry]
  constructor
  · rintro ⟨k, hk⟩
    obtain ⟨a, ha⟩ := Option.isSome_iff_exists.mp hk
    exact ⟨k, ((acceptWorkItem_eq_some U _ _).mp ha).1⟩
  · rintro ⟨k, hk⟩
    exact ⟨k, by rw [(acceptWorkItem_eq_some U _ _).mpr ⟨hk, rfl⟩]; rfl⟩

/-- Claim C6 as stated fails: the line ` BCDS-1 `, typed with a space on each
side, is not valid once lowercased, and neither is the default `main`; the
work-item step finishes on it all the same and collects `bcds-1`, which is not
the lowercased form of the typed line but of the line without its surrounding
white space. -/
theorem typed_work_item_is_trimmed :
    validateWorkItem (ToLower asciiCase (lit " BCDS-1 ")) = false ∧
    validateWorkItem (ToLower asciiCase (lit "main")) = false ∧
    workItemLoop asciiCase LastInputs.zero (lit "main") [lit " BCDS-1 "]
      = some (lit "bcds-1", []) ∧
    lit "bcds-1" ≠ ToLower asciiCase (lit " BCDS-1 ") ∧
    lit "bcds-1" ≠ ToLower asciiCase (lit "main") := by
  refine ⟨by decide, by decide, by decide, by decide, by decide⟩

/-- Claim C6, amended: for every prior preference record, branch suggestion and
sequence of input lines, the work-item step finishes exactly when some entry
(the typed line with its surrounding white space removed, or on a blank line
the default: the prior work item if non-empty, the branch suggestion otherwise)
is valid once lowercased; the work item collected then satisfies
`validateWorkItem` and is the lowercased form of the first such entry, every
earlier entry having been rejected and the input read up to that entry; so
`BCDS-1` typed after a rejected entry is collected as `bcds-1`, so is
` BCDS-1 `, a blank line yields the prior work item `bcds-7`, and with no prior
work item it yields the branch suggestion `bcds-77-login`. -/
theorem workItemLoop_first_valid (U : Unicode) :
    (∀ (lastInputs : LastInputs) (branchSuggestion : Str) (inp : Input) (w : Str)
        (rest : Input),
      workItemLoop U lastInputs branchSuggestion inp = some (w, rest) ↔
        ∃ k : Nat,
          validateWorkItem
            (ToLower U (typedEntry (if lastInputs.WorkItem = [] then branchSuggestion
              else lastInputs.WorkItem) inp k)) = true ∧
          (∀ j, j < k → validateWorkItem
            (ToLower U (typedEntry (if lastInputs.WorkItem = [] then branchSuggestion
              else lastInputs.WorkItem) inp j)) = false) ∧
          w = ToLower U (typedEntry (if lastInputs.WorkItem = [] then branchSuggestion
              else lastInputs.WorkItem) inp k) ∧
          validateWorkItem w = true ∧
          rest = inp.drop (k + 1)) ∧
    (∀ (lastInputs : LastInputs) (branchSuggestion : Str) (inp : Input),
      (workItemLoop U lastInputs branchSuggestion inp).isSome = true ↔
        ∃ k : Nat, validateWorkItem
          (ToLower U (typedEntry (if lastInputs.WorkItem = [] then branchSuggestion
            else lastInputs.WorkItem) inp k)) = true) ∧
    (∀ (defaultVal : Str) (inp : Input) (k : Nat),
      typedEntry defaultVal inp k =
        if TrimSpace (inp.getD k []) = [] then defaultVal else TrimSpace (inp.getD k [])) ∧
    workItemLoop U LastInputs.zero (lit "main") [lit "ticket 1", lit "BCDS-1", lit "feat"]
      = some (lit "bcds-1", [lit "feat"]) ∧
    workItemLoop U LastInputs.zero (lit "main") [lit " BCDS-1 ", lit "feat"]
      = some (lit "bcds-1", [lit "feat"]) ∧
    workItemLoop U ⟨lit "bcds-7", 2, [], [], []⟩ (lit "bcds-77-login") [lit "  ", lit "feat"]
      = some (lit "bcds-7", [lit "feat"]) ∧
    workItemLoop U LastInputs.zero (lit "bcds-77-login") [lit "", lit "feat"]
      = some (lit "bcds-77-login", [lit "feat"]) ∧
    workItemLoop U LastInputs.zero (lit "main") [] = none :=
  ⟨workItemLoop_eq_some_iff U, workItemLoop_isSome_iff U, fun _ _ _ => rfl,
    (workItemLoop_ascii U _ _ (by decide) _ (by decide)).trans (by decide),
    (workItemLoop_ascii U _ _ (by decide) _ (by decide)).trans (by decide),
    (workItemLoop_ascii U _ _ (by decide) _ (by decide)).trans (by decide),
    (workItemLoop_ascii U _ _ (by decide) _ (by decide)).trans (by decide),
    (workItemLoop_ascii U _ _ (by decide) _ (by decide)).trans (by decide)⟩

/-- An instance of claim C6 as amended: with the prior work item `bcds-7`, the
entry `ticket 1` is rejected and the blank line that follows yields `bcds-7`;
with no prior work item and the branch suggestion `feature-x`, the blank line
yields that suggestion, which is rejected, and the line ` BCDS-1 ` that follows
is collected as `bcds-1`. -/
theorem workItemLoop_first_valid_witness :
    workItemLoop asciiCase ⟨lit "bcds-7", 2, [], [], []⟩ (lit "main")
        [lit "ticket 1", lit "  ", lit "feat"] = some (lit "bcds-7", [lit "feat"]) ∧
    workItemLoop asciiCase LastInputs.zero (lit "feature-x")
        [lit "", lit " BCDS-1 ", lit "feat"] = some (lit "bcds-1", [lit "feat"]) :=
  ⟨((workItemLoop_first_valid asciiCase).1 _ _ _ _ _).mpr
      ⟨1, by decide, by decide, by decide, by decide, by decide⟩,
    ((workItemLoop_first_valid asciiCase).1 _ _ _ _ _).mpr
      ⟨1, by decide, by decide, by decide, by decide, by decide⟩⟩

theorem readYesNo_cons (U : Unicode) (l : Str) (rest : Input) :
    readYesNo U (l :: rest) =
      match verdict U l with
      | some v => (v, rest)
      | none => readYesNo U rest := by
  have hread : (readLine (l :: rest)).1 = TrimSpace l := rfl
  rw [readYesNo, hread]
  unfold verdict
  by_cases h1 : ToLower U (TrimSpace l) = lit "y" ∨ ToLower U (TrimSpace l) = lit "yes"
  · simp only [h1, if_true]
  · by_cases h2 : ToLower U (TrimSpace l) = [] ∨ ToLower U (TrimSpace l) = lit "n" ∨
        ToLower U (TrimSpace l) = lit "no"
    · simp only [h1, h2, if_true, if_false]
    · simp only [h1, h2, if_false]

theorem verdict_ascii (U : Unicode) (s : Str) (h : ∀ r ∈ TrimSpace s, r.rune.toNat < 128) :
    verdict U s = verdict asciiCase s := by
  unfold verdict
  rw [ToLower_ascii U _ h, ToLower_ascii asciiCase _ h]

/-- Claim C7: for every sequence of answers typed at a yes/no prompt,
`readYesNo` returns the verdict of the first answer that, after trimming and
lowercasing, is `y` or `yes` (true) or is empty, `n` or `no` (false); the
earlier answers, outside that set, only make it prompt again (at the end of the
input the answer read is empty, hence no); so the empty answer, `n`, `N`, `no`
give false and `y`, `Y`, `yes` give true. -/
theorem readYesNo_first_verdict (U : Unicode) :
    (∀ (pre : List Str) (l : Str) (rest : Input) (v : Bool),
      (∀ a ∈ pre, verdict U a = none) → verdict U l = some v →
        readYesNo U (pre ++ l :: rest) = (v, rest)) ∧
    (∀ pre : List Str, (∀ a ∈ pre, verdict U a = none) → readYesNo U pre = (false, [])) ∧
    (∀ l : Str, verdict U l =
      if ToLower U (TrimSpace l) = lit "y" ∨ ToLower U (TrimSpace l) = lit "yes" then some true
      else if ToLower U (TrimSpace l) = lit "" ∨ ToLower U (TrimSpace l) = lit "n" ∨
        ToLower U (TrimSpace l) = lit "no" then some false
      else none) ∧
    (∀ rest : Input,
      readYesNo U (lit "" :: rest) = (false, rest) ∧ readYesNo U (lit "n" :: rest) = (false, rest) ∧
      readYesNo U (lit "N" :: rest) = (false, rest) ∧ readYesNo U (lit "no" :: rest) = (false, rest) ∧
      readYesNo U (lit "y" :: rest) = (true, rest) ∧ readYesNo U (lit "Y" :: rest) = (true, rest) ∧
      readYesNo U (lit "yes" :: rest) = (true, rest)) := by
  have first : ∀ (pre : List Str) (l : Str) (rest : Input) (v : Bool),
      (∀ a ∈ pre, verdict U a = none) → verdict U l = some v →
        readYesNo U (pre ++ l :: rest) = (v, rest) := by
    intro pre
    induction pre with
    | nil =>
      intro l rest v _ hl
      rw [List.nil_append, readYesNo_cons, hl]
    | cons a pre ih =>
      intro l rest v hpre hl
      rw [List.cons_append, readYesNo_cons, hpre a (List.mem_cons_self _ _)]
      exact ih l rest v (fun b hb => hpre b (List.mem_cons_of_mem _ hb)) hl
  have concrete : ∀ (l : Str) (v : Bool) (rest : Input), (∀ r ∈ TrimSpace l, r.rune.toNat < 128) →
      verdict asciiCase l = some v → readYesNo U (l :: rest) = (v, rest) := by
    intro l v rest hascii hv
    exact first [] l rest v (fun a ha => absurd ha (List.not_mem_nil a))
      ((verdict_ascii U l hascii).trans hv)
  refine ⟨first, ?_, fun l => rfl, fun rest => ⟨?_, ?_, ?_, ?_, ?_, ?_, ?_⟩⟩
  · intro pre
    induction pre with
    | nil => intro _; rfl
    | cons a pre ih =>
      intro hpre
      rw [readYesNo_cons, hpre a (List.mem_cons_self _ _)]
      exact ih (fun b hb => hpre b (List.mem_cons_of_mem _ hb))
  · exact concrete _ _ rest (by decide) (by decide)
  · exact concrete _ _ rest (by decide) (by decide)
  · exact concrete _ _ rest (by decide) (by decide)
  · exact concrete _ _ rest (by decide) (by decide)
  · exact concrete _ _ rest (by decide) (by decide)
  · exact concrete _ _ rest (by decide) (by decide)
  · exact concrete _ _ rest (by decide) (by decide)

/-- An instance of claim C7: after the rejected answer `maybe`, the answer `Y`
decides. -/
theorem readYesNo_first_verdict_witness :
    (∀ a ∈ [lit "maybe"], verdict asciiCase a = none) ∧
    verdict asciiCase (lit " Y ") = some true ∧
    readYesNo asciiCase ([lit "maybe"] ++ lit " Y " :: [lit "n"]) = (true, [lit "n"]) :=
  ⟨by decide, by decide,
    (readYesNo_first_verdict asciiCase).1 [lit "maybe"] (lit " Y ") [lit "n"] true
      (by decide) (by decide)⟩

/-- Claim C5, at the input on which the code departs from it: with a prior
record whose scope is `api` and whose issue reference is `Closes #123`, an
empty line at the scope step yields the scope `api` (and the header
`feat(api): add login`), and an empty line at the issue-reference step yields
`Closes #123` (and the footer block starts with it); neither field is skipped. -/
theorem blank_line_keeps_prior_value :
    scopeStep ⟨lit "bcds-1", 1, lit "api", lit "add login", lit "Closes #123"⟩ [lit ""]
      = (lit "api", []) ∧
    buildHeader (lit "feat")
      (scopeStep ⟨lit "bcds-1", 1, lit "api", lit "add login", lit "Closes #123"⟩ [lit ""]).1
      (lit "add login") = lit "feat(api): add login" ∧
    issueRefStep ⟨lit "bcds-1", 1, lit "api", lit "add login", lit "Closes #123"⟩ [lit ""]
      = (lit "Closes #123", []) ∧
    buildFooters []
      (issueRefStep ⟨lit "bcds-1", 1, lit "api", lit "add login", lit "Closes #123"⟩ [lit ""]).1
      (lit "bcds-1") = [lit "Closes #123", lit "Refs bcds-1"] := by
  refine ⟨by decide, by decide, by decide, by decide⟩

/-! ## Decimal notation -/

theorem digitsRev_fuel : ∀ (f g n : Nat), n < f → n < g → digitsRev f n = digitsRev g n := by
  intro f
  induction f with
  | zero => intro g n h; exact absurd h (Nat.not_lt_zero n)
  | succ f ih =>
    intro g n hf hg
    cases g with
    | zero => exact absurd hg (Nat.not_lt_zero n)
    | succ g =>
      by_cases h10 : n < 10
      · simp [digitsRev, h10]
      · simp only [digitsRev, h10, if_false]
        rw [ih g (n / 10) (by omega) (by omega)]

theorem natToStr_small (n : Nat) (h : n < 10) : natToStr n = [digitChar n] := by
  simp [natToStr, digitsRev, h]

theorem natToStr_large (n : Nat) (h : ¬ n < 10) :
    natToStr n = natToStr (n / 10) ++ [digitChar (n % 10)] := by
  have h1 : digitsRev (n + 1) n = n % 10 :: digitsRev n (n / 10) := by
    rw [digitsRev, if_neg h]
  have h2 : digitsRev n (n / 10) = digitsRev (n / 10 + 1) (n / 10) :=
    digitsRev_fuel n (n / 10 + 1) (n / 10) (by omega) (by omega)
  unfold natToStr
  rw [h1, h2, List.reverse_cons, List.map_append]
  rfl

theorem digitVal_digitChar (d : Nat) (h : d < 10) : digitVal (digitChar d) = some d := by
  interval_cases d <;> rfl

theorem isAsciiDigit_digitChar (d : Nat) (h : d < 10) : isAsciiDigit (digitChar d) = true := by
  interval_cases d <;> rfl

theorem parseDigits_append_digit (l : Str) (d : Nat) (h : d < 10) :
    ∀ acc : Nat, parseDigits acc (l ++ [digitChar d]) =
      (parseDigits acc l).map (fun v => v * 10 + d) := by
  induction l with
  | nil =>
    intro acc
    simp [parseDigits, digitVal_digitChar d h]
  | cons r l ih =>
    intro acc
    cases hr : digitVal r with
    | none => simp [parseDigits, hr]
    | some x => simp [parseDigits, hr, ih]

/-- Reading back the decimal notation of `n` gives `n`. -/
theorem parseDigits_natToStr : ∀ n : Nat, parseDigits 0 (natToStr n) = some n := by
  intro n
  induction n using Nat.strong_induction_on with
  | _ n ih =>
    by_cases h : n < 10
    · rw [natToStr_small n h]
      simp [parseDigits, digitVal_digitChar n h]
    · rw [natToStr_large n h, parseDigits_append_digit _ _ (Nat.mod_lt n (by decide)),
        ih (n / 10) (by omega)]
      simp only [Option.map_some', Option.some.injEq]
      omega

theorem natToStr_digits : ∀ n : Nat, ∀ r ∈ natToStr n, isAsciiDigit r = true := by
  intro n
  induction n using Nat.strong_induction_on with
  | _ n ih =>
    by_cases h : n < 10
    · rw [natToStr_small n h]
      intro r hr
      rw [List.mem_singleton.mp hr]
      exact isAsciiDigit_digitChar n h
    · rw [natToStr_large n h]
      intro r hr
      rcases List.mem_append.mp hr with hr | hr
      · exact ih (n / 10) (by omega) r hr
      · rw [List.mem_singleton.mp hr]
        exact isAsciiDigit_digitChar _ (Nat.mod_lt n (by decide))

theorem natToStr_ne_nil (n : Nat) : natToStr n ≠ [] := by
  by_cases h : n < 10
  · rw [natToStr_small n h]; simp
  · rw [natToStr_large n h]; simp

/-- The decimal notation has no superfluous leading zero. -/
theorem natToStr_head : ∀ n : Nat, 0 < n → (natToStr n).head? ≠ some (GoRune.ch '0') := by
  intro n
  induction n using Nat.strong_induction_on with
  | _ n ih =>
    intro hpos
    by_cases h : n < 10
    · rw [natToStr_small n h]
      interval_cases n <;> decide
    · rw [natToStr_large n h]
      have hne := natToStr_ne_nil (n / 10)
      cases hq : natToStr (n / 10) with
      | nil => exact absurd hq hne
      | cons x xs =>
        have := ih (n / 10) (by omega) (by omega)
        rw [hq] at this
        simpa using this

theorem natToStr_length_one (n : Nat) (h : (natToStr n).length ≤ 1) : n < 10 := by
  by_contra hn
  rw [natToStr_large n hn] at h
  have := natToStr_ne_nil (n / 10)
  cases hq : natToStr (n / 10) with
  | nil => exact this hq
  | cons x xs => rw [hq] at h; simp at h

theorem splitSign_digit (x : GoRune) (xs : Str) (hx : isAsciiDigit x = true) :
    splitSign (x :: xs) = (false, x :: xs) := by
  cases x with
  | bad b => rfl
  | ch c =>
    have h1 : c ≠ '-' := by intro hc; rw [hc] at hx; revert hx; decide
    have h2 : c ≠ '+' := by intro hc; rw [hc] at hx; revert hx; decide
    simp [splitSign, h1, h2]

/-- `Atoi` reads back what `Itoa` writes, for every value of `int`. -/
theorem Atoi_Itoa (i : Int) (h : isInt i) : Atoi (Itoa i) = some i := by
  cases i with
  | ofNat n =>
    have hp := parseDigits_natToStr n
    cases hs : natToStr n with
    | nil => exact absurd hs (natToStr_ne_nil n)
    | cons x xs =>
      have hx : isAsciiDigit x = true := natToStr_digits n x (by rw [hs]; exact List.mem_cons_self _ _)
      rw [hs] at hp
      have hi : isInt (n : Int) := h
      simp only [Itoa, Atoi, hs, splitSign_digit x xs hx, hp, Bool.false_eq_true, if_false,
        hi, if_true, reduceCtorEq]
      rfl
  | negSucc n =>
    have hp := parseDigits_natToStr (n + 1)
    have hne := natToStr_ne_nil (n + 1)
    have hsplit : splitSign (GoRune.ch '-' :: natToStr (n + 1)) = (true, natToStr (n + 1)) := rfl
    have hv : (-((n + 1 : Nat) : Int)) = Int.negSucc n := rfl
    have hi : isInt (-((n + 1 : Nat) : Int)) := by rw [hv]; exact h
    simp only [Itoa, Atoi, hsplit, hne, hp, if_true, if_false, hi]
    rw [hv]

/-! ## Strings through the JSON encoder and decoder -/

theorem char_of_toNat {c : Char} {n : Nat} (h : c.toNat = n) : c = Char.ofNat n := by
  rw [← h, Char.ofNat_toNat]

theorem hexVal_hexDigit (n : Nat) (h : n < 16) : hexVal (hexDigit n) = some n := by
  interval_cases n <;> rfl

theorem parseStringBody_bad (f : Nat) (b : UInt8) (tail : Str) :
    parseStringBody (f + 1) (.bad b :: tail) =
      (parseStringBody f tail).map (fun p => (GoRune.ch (Char.ofNat 0xFFFD) :: p.1, p.2)) := by
  rw [parseStringBody]

theorem parseStringBody_plain (f : Nat) (c : Char) (tail : Str) (h1 : c ≠ '"') (h2 : c ≠ '\\')
    (h3 : ¬ c.toNat < 32) :
    parseStringBody (f + 1) (.ch c :: tail) =
      (parseStringBody f tail).map (fun p => (GoRune.ch c :: p.1, p.2)) := by
  rw [parseStringBody]
  simp only [h1, h2, h3, if_false]

theorem parseStringBody_escape (f : Nat) (x : Char) (tail rest1 : Str)
    (h : decodeEscape tail = some (x, rest1)) :
    parseStringBody (f + 1) (.ch '\\' :: tail) =
      (parseStringBody f rest1).map (fun p => (GoRune.ch x :: p.1, p.2)) := by
  rw [parseStringBody]
  have hq : ('\\' : Char) ≠ '"' := by decide
  simp only [hq, if_false, if_true, h]

theorem parseStringBody_end (f : Nat) (tail : Str) :
    parseStringBody (f + 1) (.ch '"' :: tail) = some ([], tail) := by
  rw [parseStringBody]
  simp only [if_true]

theorem decodeEscape_simple (e x : Char) (tail : Str) (h1 : e ≠ 'u')
    (h2 : simpleEscape e = some x) : decodeEscape (.ch e :: tail) = some (x, tail) := by
  simp only [decodeEscape, h1, if_false, h2, Option.map_some']

theorem decodeEscape_u (a b c d : GoRune) (v : Nat) (tail : Str)
    (h4 : hex4 a b c d = some v) (hv : v < 0xD800 ∨ 0xE000 ≤ v) :
    decodeEscape (.ch 'u' :: a :: b :: c :: d :: tail) = some (Char.ofNat v, tail) := by
  have hv' : ¬ (0xD800 ≤ v ∧ v < 0xE000) := by omega
  simp only [decodeEscape, if_true, decodeUnicodeEscape, h4, hv', if_false]

theorem hex4_00 (a b : Nat) (ha : a < 16) (hb : b < 16) :
    hex4 (.ch '0') (.ch '0') (hexDigit a) (hexDigit b) = some (a * 16 + b) := by
  have h0 : hexVal (.ch '0') = some 0 := rfl
  simp only [hex4, h0, hexVal_hexDigit a ha, hexVal_hexDigit b hb]
  simp

/-- The decoder reads back one encoded unit as its coerced form. -/
theorem parseStringBody_escapeRune (f : Nat) (r : GoRune) (tail : Str) :
    parseStringBody (f + 1) (escapeRune r ++ tail) =
      (parseStringBody f tail).map (fun p => (coerceRune r :: p.1, p.2)) := by
  cases r with
  | bad b =>
    have h4 : hex4 (.ch 'f') (.ch 'f') (.ch 'f') (.ch 'd') = some 0xFFFD := rfl
    exact parseStringBody_escape f _ _ tail
      (decodeEscape_u (.ch 'f') (.ch 'f') (.ch 'f') (.ch 'd') 0xFFFD tail h4 (by omega))
  | ch c =>
    unfold escapeRune coerceRune
    by_cases h1 : c = '"'
    · subst h1
      exact parseStringBody_escape f _ _ tail (decodeEscape_simple '"' '"' tail (by decide) rfl)
    simp only [h1, if_false]
    by_cases h2 : c = '\\'
    · subst h2
      exact parseStringBody_escape f _ _ tail (decodeEscape_simple '\\' '\\' tail (by decide) rfl)
    simp only [h2, if_false]
    by_cases h3 : c.toNat = 8
    · rw [char_of_toNat h3]
      exact parseStringBody_escape f _ _ tail (decodeEscape_simple 'b' _ tail (by decide) rfl)
    by_cases h4 : c.toNat = 12
    · rw [char_of_toNat h4]
      exact parseStringBody_escape f _ _ tail (decodeEscape_simple 'f' _ tail (by decide) rfl)
    simp only [h3, h4, if_false]
    by_cases h5 : c = '\n'
    · subst h5
      exact parseStringBody_escape f _ _ tail (decodeEscape_simple 'n' _ tail (by decide) rfl)
    simp only [h5, if_false]
    by_cases h6 : c = '\r'
    · subst h6
      exact parseStringBody_escape f _ _ tail (decodeEscape_simple 'r' _ tail (by decide) rfl)
    simp only [h6, if_false]
    by_cases h7 : c = '\t'
    · subst h7
      exact parseStringBody_escape f _ _ tail (decodeEscape_simple 't' _ tail (by decide) rfl)
    simp only [h7, if_false]
    by_cases h8 : c.toNat < 32 ∨ c = '<' ∨ c = '>' ∨ c = '&'
    · simp only [h8, if_true]
      have hlt : c.toNat < 128 := by
        rcases h8 with h | h | h | h
        · omega
        · rw [h]; decide
        · rw [h]; decide
        · rw [h]; decide
      have hdec := decodeEscape_u (.ch '0') (.ch '0') (hexDigit (c.toNat / 16))
        (hexDigit (c.toNat % 16)) (c.toNat / 16 * 16 + c.toNat % 16) tail
        (hex4_00 _ _ (by omega) (by omega)) (by omega)
      have hval : c.toNat / 16 * 16 + c.toNat % 16 = c.toNat := by omega
      rw [hval, Char.ofNat_toNat] at hdec
      exact parseStringBody_escape f _ _ tail hdec
    simp only [h8, if_false]
    by_cases h9 : c.toNat = 0x2028 ∨ c.toNat = 0x2029
    · simp only [h9, if_true]
      rcases h9 with h | h
      · rw [h, char_of_toNat h]
        exact parseStringBody_escape f _ _ tail
          (decodeEscape_u (.ch '2') (.ch '0') (.ch '2') (.ch '8') 0x2028 tail rfl (by omega))
      · rw [h, char_of_toNat h]
        exact parseStringBody_escape f _ _ tail
          (decodeEscape_u (.ch '2') (.ch '0') (.ch '2') (.ch '9') 0x2029 tail rfl (by omega))
    simp only [h9, if_false]
    have hge : ¬ c.toNat < 32 := fun h => h8 (Or.inl h)
    exact parseStringBody_plain f c tail h1 h2 hge

theorem length_le_flatMap_escapeRune (s : Str) : s.length ≤ (s.flatMap escapeRune).length := by
  induction s with
  | nil => simp
  | cons r s ih =>
    have hpos : 1 ≤ (escapeRune r).length := by
      cases r with
      | bad b => exact (by decide : 1 ≤ (lit "\\ufffd").length)
      | ch c =>
        unfold escapeRune
        repeat' split
        all_goals simp [lit]
    simp only [List.flatMap_cons, List.length_append, List.length_cons]
    omega

/-- The decoder reads back an encoded string as its coerced form. -/
theorem parseStringBody_quote :
    ∀ (s : Str) (f : Nat) (tail : Str), s.length < f →
      parseStringBody f (s.flatMap escapeRune ++ GoRune.ch '"' :: tail) =
        some (coerceUTF8 s, tail) := by
  intro s
  induction s with
  | nil =>
    intro f tail hf
    obtain ⟨g, rfl⟩ : ∃ g, f = g + 1 := ⟨f - 1, by omega⟩
    exact parseStringBody_end g tail
  | cons r s ih =>
    intro f tail hf
    obtain ⟨g, rfl⟩ : ∃ g, f = g + 1 := ⟨f - 1, by omega⟩
    rw [List.flatMap_cons, List.append_assoc, parseStringBody_escapeRune,
      ih g tail (by simpa using hf)]
    rfl

theorem parseString_quote (s tail : Str) :
    parseString (s.flatMap escapeRune ++ GoRune.ch '"' :: tail) = some (coerceUTF8 s, tail) := by
  unfold parseString
  apply parseStringBody_quote
  have := length_le_flatMap_escapeRune s
  simp only [List.length_append, List.length_cons]
  omega

/-! ## Numbers and members through the JSON decoder -/

theorem parseString_plain (k tail : Str) (h1 : k.flatMap escapeRune = k)
    (h2 : coerceUTF8 k = k) : parseString (k ++ GoRune.ch '"' :: tail) = some (k, tail) := by
  have := parseString_quote k tail
  rw [h1, h2] at this
  exact this

theorem scanDigits_natToStr (n : Nat) (tail : Str) :
    scanDigits (natToStr n ++ GoRune.ch ',' :: tail) = some (natToStr n, GoRune.ch ',' :: tail) := by
  have hall : ∀ a ∈ natToStr n, isAsciiDigit a = true := natToStr_digits n
  have hc : ¬ isAsciiDigit (GoRune.ch ',') = true := by decide
  unfold scanDigits
  rw [List.takeWhile_append_of_pos hall, List.dropWhile_append_of_pos hall,
    List.takeWhile_cons_of_neg hc, List.dropWhile_cons_of_neg hc, List.append_nil]
  simp [natToStr_ne_nil n]

theorem scanNumber_natToStr (n : Nat) (tail : Str) :
    scanNumber (natToStr n ++ GoRune.ch ',' :: tail) = some (natToStr n, GoRune.ch ',' :: tail) := by
  have hsplit : splitMinus (natToStr n ++ GoRune.ch ',' :: tail)
      = ([], natToStr n ++ GoRune.ch ',' :: tail) := by
    cases hs : natToStr n with
    | nil => exact absurd hs (natToStr_ne_nil n)
    | cons x xs =>
      have hx : isAsciiDigit x = true :=
        natToStr_digits n x (by rw [hs]; exact List.mem_cons_self _ _)
      cases x with
      | bad b => rfl
      | ch c =>
        have hc : c ≠ '-' := by intro h; rw [h] at hx; revert hx; decide
        simp [splitMinus, hc]
  have hlead : ¬ (1 < (natToStr n).length ∧ (natToStr n).head? = some (GoRune.ch '0')) := by
    rintro ⟨hlen, hhead⟩
    have hn : ¬ n < 10 := fun h => by
      rw [natToStr_small n h] at hlen
      simp at hlen
    exact natToStr_head n (by omega) hhead
  have hfr : scanFraction (GoRune.ch ',' :: tail) = some ([], GoRune.ch ',' :: tail) := by
    simp [scanFraction]
  have hex : scanExponent (GoRune.ch ',' :: tail) = some ([], GoRune.ch ',' :: tail) := by
    simp [scanExponent]
  unfold scanNumber
  rw [hsplit]
  simp only [scanDigits_natToStr, hlead, if_false, hfr, hex, List.nil_append, List.append_nil]

theorem scanNumber_Itoa (i : Int) (tail : Str) :
    scanNumber (Itoa i ++ GoRune.ch ',' :: tail) = some (Itoa i, GoRune.ch ',' :: tail) := by
  cases i with
  | ofNat n => exact scanNumber_natToStr n tail
  | negSucc n =>
    have h := scanNumber_natToStr (n + 1) tail
    have hsplit : splitMinus (Itoa (Int.negSucc n) ++ GoRune.ch ',' :: tail)
        = ([GoRune.ch '-'], natToStr (n + 1) ++ GoRune.ch ',' :: tail) := rfl
    have hsplit0 : splitMinus (natToStr (n + 1) ++ GoRune.ch ',' :: tail)
        = ([], natToStr (n + 1) ++ GoRune.ch ',' :: tail) := by
      cases hs : natToStr (n + 1) with
      | nil => exact absurd hs (natToStr_ne_nil _)
      | cons x xs =>
        have hx : isAsciiDigit x = true :=
          natToStr_digits _ x (by rw [hs]; exact List.mem_cons_self _ _)
        cases x with
        | bad b => rfl
        | ch c =>
          have hc : c ≠ '-' := by intro h; rw [h] at hx; revert hx; decide
          simp [splitMinus, hc]
    unfold scanNumber at h ⊢
    rw [hsplit0] at h
    rw [hsplit]
    simp only [] at h ⊢
    cases hd : scanDigits (natToStr (n + 1) ++ GoRune.ch ',' :: tail) with
    | none => rw [hd] at h; simp at h
    | some p =>
      obtain ⟨ds, r1⟩ := p
      rw [hd] at h
      simp only [] at h ⊢
      by_cases hl : 1 < ds.length ∧ ds.head? = some (GoRune.ch '0')
      · simp [hl] at h
      · simp only [hl, if_false] at h ⊢
        cases hf : scanFraction r1 with
        | none => rw [hf] at h; simp at h
        | some q =>
          obtain ⟨fr, r2⟩ := q
          rw [hf] at h
          simp only [] at h ⊢
          cases he : scanExponent r2 with
          | none => rw [he] at h; simp at h
          | some q2 =>
            obtain ⟨ex, r3⟩ := q2
            rw [he] at h
            simp only [Option.some.injEq, Prod.mk.injEq, List.nil_append] at h ⊢
            obtain ⟨h1, h2⟩ := h
            refine ⟨?_, h2⟩
            show GoRune.ch '-' :: (ds ++ fr ++ ex) = GoRune.ch '-' :: natToStr (n + 1)
            rw [h1]

theorem Itoa_head (i : Int) : ∃ c rest, Itoa i = GoRune.ch c :: rest ∧
    (c = '-' ∨ (48 ≤ c.toNat ∧ c.toNat ≤ 57)) := by
  cases i with
  | negSucc n => exact ⟨'-', natToStr (n + 1), rfl, Or.inl rfl⟩
  | ofNat n =>
    cases hs : natToStr n with
    | nil => exact absurd hs (natToStr_ne_nil n)
    | cons x xs =>
      have hx : isAsciiDigit x = true :=
        natToStr_digits n x (by rw [hs]; exact List.mem_cons_self _ _)
      cases x with
      | bad b => simp [isAsciiDigit] at hx
      | ch c =>
        refine ⟨c, xs, hs, Or.inr ?_⟩
        simpa [isAsciiDigit] using hx

theorem parseScalar_quote (v tail : Str) :
    parseScalar (GoRune.ch '"' :: (v.flatMap escapeRune ++ GoRune.ch '"' :: tail)) =
      some (JValue.str (coerceUTF8 v), tail) := by
  simp only [parseScalar, if_true, parseString_quote, Option.map_some']

theorem parseScalar_Itoa (i : Int) (tail : Str) :
    parseScalar (Itoa i ++ GoRune.ch ',' :: tail) =
      some (JValue.num (Itoa i), GoRune.ch ',' :: tail) := by
  obtain ⟨c, rest, hc, hcase⟩ := Itoa_head i
  have hnum := scanNumber_Itoa i tail
  rw [hc] at hnum ⊢
  have h1 : c ≠ '"' := by
    rcases hcase with h | h
    · rw [h]; decide
    · intro h'; rw [h'] at h; revert h; decide
  have hn : c ≠ 'n' := by
    rcases hcase with h | h
    · rw [h]; decide
    · intro h'; rw [h'] at h; revert h; decide
  have ht : c ≠ 't' := by
    rcases hcase with h | h
    · rw [h]; decide
    · intro h'; rw [h'] at h; revert h; decide
  have hf : c ≠ 'f' := by
    rcases hcase with h | h
    · rw [h]; decide
    · intro h'; rw [h'] at h; revert h; decide
  have hsn : startsWith (lit "null") (GoRune.ch c :: rest ++ GoRune.ch ',' :: tail) = false := by
    have : lit "null" = [.ch 'n', .ch 'u', .ch 'l', .ch 'l'] := rfl
    simp [startsWith, this, List.isPrefixOf, Ne.symm hn]
  have hst : startsWith (lit "true") (GoRune.ch c :: rest ++ GoRune.ch ',' :: tail) = false := by
    have : lit "true" = [.ch 't', .ch 'r', .ch 'u', .ch 'e'] := rfl
    simp [startsWith, this, List.isPrefixOf, Ne.symm ht]
  have hsf : startsWith (lit "false") (GoRune.ch c :: rest ++ GoRune.ch ',' :: tail) = false := by
    have : lit "false" = [.ch 'f', .ch 'a', .ch 'l', .ch 's', .ch 'e'] := rfl
    simp [startsWith, this, List.isPrefixOf, Ne.symm hf]
  rw [List.cons_append] at hnum hsn hst hsf ⊢
  simp only [parseScalar, h1, if_false, hsn, hst, hsf, Bool.false_eq_true, hnum, Option.map_some']

theorem parseValue_scalar (d : Nat) (c : Char) (rest : Str) (h1 : c ≠ '[') (h2 : c ≠ '\x7b') :
    parseValue d (GoRune.ch c :: rest) = parseScalar (GoRune.ch c :: rest) := by
  cases d with
  | zero => rw [parseValue]
  | succ d =>
    rw [parseValue]
    simp only [h1, h2, if_false]

theorem parseValue_quote (d : Nat) (v tail : Str) :
    parseValue d (GoRune.ch '"' :: (v.flatMap escapeRune ++ GoRune.ch '"' :: tail)) =
      some (JValue.str (coerceUTF8 v), tail) := by
  rw [parseValue_scalar d _ _ (by decide) (by decide), parseScalar_quote]

theorem parseValue_Itoa (d : Nat) (i : Int) (tail : Str) :
    parseValue d (Itoa i ++ GoRune.ch ',' :: tail) =
      some (JValue.num (Itoa i), GoRune.ch ',' :: tail) := by
  have hs := parseScalar_Itoa i tail
  obtain ⟨c, rest, hc, hcase⟩ := Itoa_head i
  rw [hc, List.cons_append] at hs ⊢
  have h1 : c ≠ '[' := by
    rcases hcase with h | h
    · rw [h]; decide
    · intro h'; rw [h'] at h; revert h; decide
  have h2 : c ≠ '\x7b' := by
    rcases hcase with h | h
    · rw [h]; decide
    · intro h'; rw [h'] at h; revert h; decide
  rw [parseValue_scalar d c _ h1 h2, hs]

theorem skipSpace_quote (tail : Str) :
    skipSpace (GoRune.ch '"' :: tail) = GoRune.ch '"' :: tail := rfl

theorem parseMember_str (d : Nat) (k v tail : Str) (h1 : k.flatMap escapeRune = k) (h2 : coerceUTF8 k = k) :
    parseMember (parseValue d) (GoRune.ch '"' :: (k ++ GoRune.ch '"' :: GoRune.ch ':' :: GoRune.ch ' ' ::
        GoRune.ch '"' :: (v.flatMap escapeRune ++ GoRune.ch '"' :: tail))) =
      some ((k, JValue.str (coerceUTF8 v)), tail) := by
  have hs : ∀ x : Str, skipSpace (GoRune.ch ':' :: x) = GoRune.ch ':' :: x := fun _ => rfl
  have hs2 : ∀ x : Str, skipSpace (GoRune.ch ' ' :: GoRune.ch '"' :: x) = GoRune.ch '"' :: x :=
    fun _ => rfl
  simp only [parseMember, if_true, parseString_plain k _ h1 h2, hs, hs2, parseValue_quote,
    Option.map_some']

theorem parseMember_num (d : Nat) (k : Str) (i : Int) (tail : Str) (h1 : k.flatMap escapeRune = k)
    (h2 : coerceUTF8 k = k) :
    parseMember (parseValue d) (GoRune.ch '"' :: (k ++ GoRune.ch '"' :: GoRune.ch ':' :: GoRune.ch ' ' ::
        (Itoa i ++ GoRune.ch ',' :: tail))) =
      some ((k, JValue.num (Itoa i)), GoRune.ch ',' :: tail) := by
  have hs : ∀ x : Str, skipSpace (GoRune.ch ':' :: x) = GoRune.ch ':' :: x := fun _ => rfl
  obtain ⟨c, rest, hc, hcase⟩ := Itoa_head i
  have hsp : isJsonSpace (GoRune.ch c) = false := by
    rcases hcase with h | h
    · rw [h]; decide
    · cases hj : isJsonSpace (GoRune.ch c) with
      | false => rfl
      | true =>
        simp only [isJsonSpace, Bool.or_eq_true, decide_eq_true_eq] at hj
        rcases hj with ((hj | hj) | hj) | hj <;> (rw [hj] at h; revert h; decide)
  have hs2 : skipSpace (GoRune.ch ' ' :: (Itoa i ++ GoRune.ch ',' :: tail))
      = Itoa i ++ GoRune.ch ',' :: tail := by
    rw [hc]
    show List.dropWhile isJsonSpace (GoRune.ch ' ' :: (GoRune.ch c :: rest ++ GoRune.ch ',' :: tail))
      = GoRune.ch c :: rest ++ GoRune.ch ',' :: tail
    rw [List.dropWhile_cons_of_pos (by decide), List.cons_append,
      List.dropWhile_cons_of_neg (by simp [hsp])]
  simp only [parseMember, if_true, parseString_plain k _ h1 h2, hs, hs2, parseValue_Itoa,
    Option.map_some']

theorem parseMembers_comma (value : Str → Option (JValue × Str)) (f : Nat) (s r next : Str)
    (m : Str × JValue) (hm : parseMember value s = some (m, r))
    (hr : skipSpace r = GoRune.ch ',' :: GoRune.ch '\n' :: GoRune.ch ' ' :: GoRune.ch ' ' ::
      GoRune.ch '"' :: next) :
    parseMembers value (f + 1) s =
      (parseMembers value f (GoRune.ch '"' :: next)).map (fun p => (m :: p.1, p.2)) := by
  have hs : skipSpace (GoRune.ch '\n' :: GoRune.ch ' ' :: GoRune.ch ' ' :: GoRune.ch '"' :: next)
      = GoRune.ch '"' :: next := rfl
  simp only [parseMembers, hm, hr, if_true, hs]

theorem parseMembers_end (value : Str → Option (JValue × Str)) (f : Nat) (s r rest : Str)
    (m : Str × JValue) (hm : parseMember value s = some (m, r)) (hr : skipSpace r = GoRune.ch '\x7d' :: rest) :
    parseMembers value (f + 1) s = some ([m], rest) := by
  have hne : ('\x7d' : Char) ≠ ',' := by decide
  simp only [parseMembers, hm, hr, hne, if_false, if_true]

theorem MarshalIndent_layout (r : LastInputs) :
    MarshalIndent r =
      GoRune.ch '\x7b' :: GoRune.ch '\n' :: GoRune.ch ' ' :: GoRune.ch ' ' :: GoRune.ch '"' ::
      (lit "workItem" ++ GoRune.ch '"' :: GoRune.ch ':' :: GoRune.ch ' ' :: GoRune.ch '"' ::
      (r.WorkItem.flatMap escapeRune ++ GoRune.ch '"' ::
      GoRune.ch ',' :: GoRune.ch '\n' :: GoRune.ch ' ' :: GoRune.ch ' ' :: GoRune.ch '"' ::
      (lit "commitTypeIndex" ++ GoRune.ch '"' :: GoRune.ch ':' :: GoRune.ch ' ' ::
      (Itoa r.CommitTypeIndex ++
      GoRune.ch ',' :: GoRune.ch '\n' :: GoRune.ch ' ' :: GoRune.ch ' ' :: GoRune.ch '"' ::
      (lit "scope" ++ GoRune.ch '"' :: GoRune.ch ':' :: GoRune.ch ' ' :: GoRune.ch '"' ::
      (r.Scope.flatMap escapeRune ++ GoRune.ch '"' ::
      GoRune.ch ',' :: GoRune.ch '\n' :: GoRune.ch ' ' :: GoRune.ch ' ' :: GoRune.ch '"' ::
      (lit "description" ++ GoRune.ch '"' :: GoRune.ch ':' :: GoRune.ch ' ' :: GoRune.ch '"' ::
      (r.Description.flatMap escapeRune ++ GoRune.ch '"' ::
      GoRune.ch ',' :: GoRune.ch '\n' :: GoRune.ch ' ' :: GoRune.ch ' ' :: GoRune.ch '"' ::
      (lit "issueRef" ++ GoRune.ch '"' :: GoRune.ch ':' :: GoRune.ch ' ' :: GoRune.ch '"' ::
      (r.IssueRef.flatMap escapeRune ++ GoRune.ch '"' ::
      GoRune.ch '\n' :: GoRune.ch '\x7d' :: [])))))))))) := by
  simp only [MarshalIndent, quote, List.append_assoc]
  rfl

theorem setField_workItem (r : LastInputs) (v : Str) :
    setField r (lit "workItem", JValue.str v) = some { r with WorkItem := v } := rfl

theorem setField_commitTypeIndex (r : LastInputs) (l : Str) :
    setField r (lit "commitTypeIndex", JValue.num l) =
      (Atoi l).map (fun i => { r with CommitTypeIndex := i }) := rfl

theorem setField_scope (r : LastInputs) (v : Str) :
    setField r (lit "scope", JValue.str v) = some { r with Scope := v } := rfl

theorem setField_description (r : LastInputs) (v : Str) :
    setField r (lit "description", JValue.str v) = some { r with Description := v } := rfl

theorem setField_issueRef (r : LastInputs) (v : Str) :
    setField r (lit "issueRef", JValue.str v) = some { r with IssueRef := v } := rfl

theorem parseMembers_str_comma (d f : Nat) (k v next : Str) (h1 : k.flatMap escapeRune = k)
    (h2 : coerceUTF8 k = k) :
    parseMembers (parseValue d) (f + 1)
      (GoRune.ch '"' :: (k ++ GoRune.ch '"' :: GoRune.ch ':' :: GoRune.ch ' ' :: GoRune.ch '"' ::
        (v.flatMap escapeRune ++ GoRune.ch '"' ::
        GoRune.ch ',' :: GoRune.ch '\n' :: GoRune.ch ' ' :: GoRune.ch ' ' :: GoRune.ch '"' :: next))) =
      (parseMembers (parseValue d) f (GoRune.ch '"' :: next)).map
        (fun p => ((k, JValue.str (coerceUTF8 v)) :: p.1, p.2)) :=
  parseMembers_comma (parseValue d) f _
    (GoRune.ch ',' :: GoRune.ch '\n' :: GoRune.ch ' ' :: GoRune.ch ' ' :: GoRune.ch '"' :: next)
    next _ (parseMember_str d k v _ h1 h2) rfl

theorem parseMembers_num_comma (d f : Nat) (k : Str) (i : Int) (next : Str)
    (h1 : k.flatMap escapeRune = k) (h2 : coerceUTF8 k = k) :
    parseMembers (parseValue d) (f + 1)
      (GoRune.ch '"' :: (k ++ GoRune.ch '"' :: GoRune.ch ':' :: GoRune.ch ' ' ::
        (Itoa i ++
        GoRune.ch ',' :: GoRune.ch '\n' :: GoRune.ch ' ' :: GoRune.ch ' ' :: GoRune.ch '"' :: next))) =
      (parseMembers (parseValue d) f (GoRune.ch '"' :: next)).map
        (fun p => ((k, JValue.num (Itoa i)) :: p.1, p.2)) :=
  parseMembers_comma (parseValue d) f _
    (GoRune.ch ',' :: GoRune.ch '\n' :: GoRune.ch ' ' :: GoRune.ch ' ' :: GoRune.ch '"' :: next)
    next _ (parseMember_num d k i _ h1 h2) rfl

theorem parseMembers_str_end (d f : Nat) (k v rest : Str) (h1 : k.flatMap escapeRune = k)
    (h2 : coerceUTF8 k = k) :
    parseMembers (parseValue d) (f + 1)
      (GoRune.ch '"' :: (k ++ GoRune.ch '"' :: GoRune.ch ':' :: GoRune.ch ' ' :: GoRune.ch '"' ::
        (v.flatMap escapeRune ++ GoRune.ch '"' :: GoRune.ch '\n' :: GoRune.ch '\x7d' :: rest))) =
      some ([(k, JValue.str (coerceUTF8 v))], rest) :=
  parseMembers_end (parseValue d) f _ (GoRune.ch '\n' :: GoRune.ch '\x7d' :: rest) rest _
    (parseMember_str d k v _ h1 h2) rfl

theorem parseMembers_layout (d f : Nat) (r : LastInputs) :
    parseMembers (parseValue d) (f + 5)
      (GoRune.ch '"' ::
      (lit "workItem" ++ GoRune.ch '"' :: GoRune.ch ':' :: GoRune.ch ' ' :: GoRune.ch '"' ::
      (r.WorkItem.flatMap escapeRune ++ GoRune.ch '"' ::
      GoRune.ch ',' :: GoRune.ch '\n' :: GoRune.ch ' ' :: GoRune.ch ' ' :: GoRune.ch '"' ::
      (lit "commitTypeIndex" ++ GoRune.ch '"' :: GoRune.ch ':' :: GoRune.ch ' ' ::
      (Itoa r.CommitTypeIndex ++
      GoRune.ch ',' :: GoRune.ch '\n' :: GoRune.ch ' ' :: GoRune.ch ' ' :: GoRune.ch '"' ::
      (lit "scope" ++ GoRune.ch '"' :: GoRune.ch ':' :: GoRune.ch ' ' :: GoRune.ch '"' ::
      (r.Scope.flatMap escapeRune ++ GoRune.ch '"' ::
      GoRune.ch ',' :: GoRune.ch '\n' :: GoRune.ch ' ' :: GoRune.ch ' ' :: GoRune.ch '"' ::
      (lit "description" ++ GoRune.ch '"' :: GoRune.ch ':' :: GoRune.ch ' ' :: GoRune.ch '"' ::
      (r.Description.flatMap escapeRune ++ GoRune.ch '"' ::
      GoRune.ch ',' :: GoRune.ch '\n' :: GoRune.ch ' ' :: GoRune.ch ' ' :: GoRune.ch '"' ::
      (lit "issueRef" ++ GoRune.ch '"' :: GoRune.ch ':' :: GoRune.ch ' ' :: GoRune.ch '"' ::
      (r.IssueRef.flatMap escapeRune ++ GoRune.ch '"' ::
      GoRune.ch '\n' :: GoRune.ch '\x7d' :: []))))))))))) =
    some ([(lit "workItem", JValue.str (coerceUTF8 r.WorkItem)),
        (lit "commitTypeIndex", JValue.num (Itoa r.CommitTypeIndex)),
        (lit "scope", JValue.str (coerceUTF8 r.Scope)),
        (lit "description", JValue.str (coerceUTF8 r.Description)),
        (lit "issueRef", JValue.str (coerceUTF8 r.IssueRef))], []) := by
  rw [parseMembers_str_comma d (f + 4) (lit "workItem") r.WorkItem _ (by decide) (by decide),
    parseMembers_num_comma d (f + 3) (lit "commitTypeIndex") r.CommitTypeIndex _
      (by decide) (by decide),
    parseMembers_str_comma d (f + 2) (lit "scope") r.Scope _ (by decide) (by decide),
    parseMembers_str_comma d (f + 1) (lit "description") r.Description _ (by decide) (by decide),
    parseMembers_str_end d f (lit "issueRef") r.IssueRef _ (by decide) (by decide)]
  rfl

/-- What loading makes of a saved record: the strings coerced to valid UTF-8,
the index as it was. -/
theorem Unmarshal_MarshalIndent (r : LastInputs) (h : isInt r.CommitTypeIndex) :
    Unmarshal (MarshalIndent r) =
      some ⟨coerceUTF8 r.WorkItem, r.CommitTypeIndex, coerceUTF8 r.Scope,
        coerceUTF8 r.Description, coerceUTF8 r.IssueRef⟩ := by
  have hdoc : parseDocument (MarshalIndent r) =
      some (JValue.obj [(lit "workItem", JValue.str (coerceUTF8 r.WorkItem)),
        (lit "commitTypeIndex", JValue.num (Itoa r.CommitTypeIndex)),
        (lit "scope", JValue.str (coerceUTF8 r.Scope)),
        (lit "description", JValue.str (coerceUTF8 r.Description)),
        (lit "issueRef", JValue.str (coerceUTF8 r.IssueRef))]) := by
    unfold parseDocument
    rw [MarshalIndent_layout]
    have hs1 : ∀ x : Str, skipSpace (GoRune.ch '\x7b' :: x) = GoRune.ch '\x7b' :: x := fun _ => rfl
    have hs2 : ∀ x : Str, skipSpace (GoRune.ch '\n' :: GoRune.ch ' ' :: GoRune.ch ' ' ::
        GoRune.ch '"' :: x) = GoRune.ch '"' :: x := fun _ => rfl
    have hdepth : maxNestingDepth = 9999 + 1 := rfl
    have hb : ('\x7b' : Char) ≠ '[' := by decide
    have hq : ('"' : Char) ≠ '\x7d' := by decide
    have hnil : skipSpace ([] : Str) = [] := rfl
    rw [hs1, hdepth, parseValue]
    simp only [hb, if_false, if_true, hs2, hq]
    have hlen : ∀ x : Str, ∃ f, (GoRune.ch '\n' :: GoRune.ch ' ' :: GoRune.ch ' ' ::
        GoRune.ch '"' :: GoRune.ch 'w' :: x).length = f + 5 := fun x => ⟨x.length, rfl⟩
    obtain ⟨f, hf⟩ := hlen _
    rw [show lit "workItem" = GoRune.ch 'w' :: lit "orkItem" from rfl, List.cons_append, hf,
      ← List.cons_append, ← show lit "workItem" = GoRune.ch 'w' :: lit "orkItem" from rfl,
      parseMembers_layout]
    simp only [Option.map_some', hnil, if_true]
  rw [Unmarshal, hdoc]
  simp only [setFields, setField_workItem, setField_commitTypeIndex, setField_scope,
    setField_description, setField_issueRef, Atoi_Itoa _ h, Option.map_some']

/-! ## The preference store -/

theorem coerceUTF8_of_valid (s : Str) (h : validUTF8 s = true) : coerceUTF8 s = s := by
  induction s with
  | nil => rfl
  | cons r s ih =>
    cases r with
    | bad b => simp [validUTF8] at h
    | ch c =>
      have hs : validUTF8 s = true := by
        simp only [validUTF8, List.all_cons, Bool.true_and] at h ⊢
        exact h
      show GoRune.ch c :: coerceUTF8 s = GoRune.ch c :: s
      rw [ih hs]

/-- Loading after a successful save: the strings come back coerced to valid
UTF-8, the index as it was. -/
theorem loadLastInputs_saveLastInputs (r : LastInputs) (h : isInt r.CommitTypeIndex) :
    loadLastInputs (saveLastInputs .succeeds r) =
      ⟨coerceUTF8 r.WorkItem, r.CommitTypeIndex, coerceUTF8 r.Scope,
        coerceUTF8 r.Description, coerceUTF8 r.IssueRef⟩ := by
  simp only [loadLastInputs, saveLastInputs, Unmarshal_MarshalIndent r h]

/-- Claim C8 as stated fails: a record whose scope holds a byte that is not
valid UTF-8 (here `caf` followed by the byte `E9`, an `é` typed on a Latin-1
terminal) does not come back equal, the write and the read both succeeding: the
byte is loaded as U+FFFD. -/
theorem roundtrip_invalid_utf8 :
    loadLastInputs
        (saveLastInputs .succeeds
          ⟨lit "bcds-1", 1, [.ch 'c', .ch 'a', .ch 'f', .bad 0xE9], lit "add menu", lit ""⟩)
      = ⟨lit "bcds-1", 1, [.ch 'c', .ch 'a', .ch 'f', .ch (Char.ofNat 0xFFFD)], lit "add menu",
          lit ""⟩ ∧
    loadLastInputs
        (saveLastInputs .succeeds
          ⟨lit "bcds-1", 1, [.ch 'c', .ch 'a', .ch 'f', .bad 0xE9], lit "add menu", lit ""⟩)
      ≠ ⟨lit "bcds-1", 1, [.ch 'c', .ch 'a', .ch 'f', .bad 0xE9], lit "add menu", lit ""⟩ := by
  constructor
  · set_option maxRecDepth 20000 in decide
  · set_option maxRecDepth 20000 in decide

/-- Claim C8, amended: for every preference record whose four strings are valid
UTF-8 (the index being any value of `int`), saving it with `saveLastInputs` and
then loading it with `loadLastInputs`, the write and the read both succeeding,
returns a record equal to the saved one in all five fields. -/
theorem roundtrip_valid_utf8 (r : LastInputs) (hi : isInt r.CommitTypeIndex)
    (hw : validUTF8 r.WorkItem = true) (hs : validUTF8 r.Scope = true)
    (hd : validUTF8 r.Description = true) (hr : validUTF8 r.IssueRef = true) :
    loadLastInputs (saveLastInputs .succeeds r) = r := by
  rw [loadLastInputs_saveLastInputs r hi, coerceUTF8_of_valid _ hw, coerceUTF8_of_valid _ hs,
    coerceUTF8_of_valid _ hd, coerceUTF8_of_valid _ hr]

/-- An instance of claim C8 as amended, with characters that the encoder
escapes and characters outside ASCII. -/
theorem roundtrip_valid_utf8_witness :
    loadLastInputs
        (saveLastInputs .succeeds
          ⟨lit "bcds-42-api", 3, lit "a\"<b>\\&\n", lit "fix 修复 é\t", lit "Closes #123"⟩)
      = ⟨lit "bcds-42-api", 3, lit "a\"<b>\\&\n", lit "fix 修复 é\t", lit "Closes #123"⟩ :=
  roundtrip_valid_utf8
    ⟨lit "bcds-42-api", 3, lit "a\"<b>\\&\n", lit "fix 修复 é\t", lit "Closes #123"⟩
    (by decide) (by decide) (by decide) (by decide) (by decide)

/-! ## The session -/

theorem acceptCommitType_eq_some (entry code : Str) (i : Int) :
    acceptCommitType entry = some (code, i) ↔
      Atoi entry = some i ∧ 1 ≤ i ∧ i ≤ 10 ∧
      [lit "feat", lit "fix", lit "docs", lit "style", lit "refactor", lit "perf", lit "test",
        lit "build", lit "ci", lit "chore"][(i - 1).toNat]? = some code := by
  have hlen : (getCommitTypes.length : Int) = 10 := rfl
  have hcodes : ∀ n : Nat, (getCommitTypes[n]?).map CommitType.code =
      [lit "feat", lit "fix", lit "docs", lit "style", lit "refactor", lit "perf",
        lit "test", lit "build", lit "ci", lit "chore"][n]? := by
    intro n
    have : getCommitTypes.map CommitType.code =
        [lit "feat", lit "fix", lit "docs", lit "style", lit "refactor", lit "perf",
          lit "test", lit "build", lit "ci", lit "chore"] := rfl
    rw [← this, List.getElem?_map]
  unfold acceptCommitType
  cases ha : Atoi entry with
  | none => simp
  | some choice =>
    by_cases hr : choice ≥ 1 ∧ choice ≤ (getCommitTypes.length : Int)
    · simp only [hr, and_self, if_true, Option.some.injEq]
      rw [hlen] at hr
      obtain ⟨h1, h2⟩ := hr
      constructor
      · intro h
        cases hg : getCommitTypes[(choice - 1).toNat]? with
        | none => rw [hg] at h; simp at h
        | some ct =>
          rw [hg] at h
          simp only [Option.map_some', Option.some.injEq, Prod.mk.injEq] at h
          obtain ⟨hc, hi⟩ := h
          subst hi
          refine ⟨rfl, h1, h2, ?_⟩
          rw [← hcodes, hg, ← hc]
          rfl
      · rintro ⟨hi, -, -, h⟩
        subst hi
        rw [← hcodes] at h
        cases hg : getCommitTypes[(choice - 1).toNat]? with
        | none => rw [hg] at h; simp at h
        | some ct =>
          rw [hg] at h
          simp only [Option.map_some', Option.some.injEq] at h
          simp [h]
    · simp only [hr, if_false, reduceCtorEq, Option.some.injEq, false_iff]
      rintro ⟨hi, h1, h2, -⟩
      subst hi
      exact hr ⟨h1, by rw [hlen]; exact h2⟩

theorem acceptCommitType_isSome_iff (entry : Str) :
    (acceptCommitType entry).isSome = true ↔
      ∃ i : Int, Atoi entry = some i ∧ 1 ≤ i ∧ i ≤ 10 := by
  constructor
  · intro hs
    obtain ⟨⟨code, i⟩, hci⟩ := Option.isSome_iff_exists.mp hs
    obtain ⟨ha, h1, h2, -⟩ := (acceptCommitType_eq_some entry code i).mp hci
    exact ⟨i, ha, h1, h2⟩
  · rintro ⟨i, ha, h1, h2⟩
    have hcode : ∃ code, [lit "feat", lit "fix", lit "docs", lit "style", lit "refactor",
        lit "perf", lit "test", lit "build", lit "ci", lit "chore"][(i - 1).toNat]?
        = some code := by
      interval_cases i <;> exact ⟨_, rfl⟩
    obtain ⟨code, hc⟩ := hcode
    rw [(acceptCommitType_eq_some entry code i).mpr ⟨ha, h1, h2, hc⟩]
    rfl

theorem defaultIndexStr_eq (lastInputs : LastInputs) :
    defaultIndexStr lastInputs =
      if 1 ≤ lastInputs.CommitTypeIndex ∧ lastInputs.CommitTypeIndex ≤ 10
      then Itoa lastInputs.CommitTypeIndex else [] := by
  have hlen : (getCommitTypes.length : Int) = 10 := rfl
  unfold defaultIndexStr
  rw [hlen]
  by_cases hr : 1 ≤ lastInputs.CommitTypeIndex ∧ lastInputs.CommitTypeIndex ≤ 10
  · have hn : ¬ (lastInputs.CommitTypeIndex < 1 ∨ lastInputs.CommitTypeIndex > 10) := by omega
    have hp : lastInputs.CommitTypeIndex > 0 := by omega
    simp only [hn, if_false, hp, if_true, hr, and_self]
  · have hn : lastInputs.CommitTypeIndex < 1 ∨ lastInputs.CommitTypeIndex > 10 := by omega
    simp only [hn, if_true, hr, if_false]
    rfl

/-- The commit-type loop in terms of the entries: it ends at the first entry
that parses as an integer of 1..10, with the code at that place of the list and
that integer. -/
theorem commitTypeLoop_eq_some_iff (lastInputs : LastInputs) (inp : Input) (code : Str)
    (i : Int) (rest : Input) :
    commitTypeLoop lastInputs inp = some ((code, i), rest) ↔
      ∃ k : Nat,
        Atoi (typedEntry (if 1 ≤ lastInputs.CommitTypeIndex ∧ lastInputs.CommitTypeIndex ≤ 10
          then Itoa lastInputs.CommitTypeIndex else []) inp k) = some i ∧
        1 ≤ i ∧ i ≤ 10 ∧
        [lit "feat", lit "fix", lit "docs", lit "style", lit "refactor", lit "perf", lit "test",
          lit "build", lit "ci", lit "chore"][(i - 1).toNat]? = some code ∧
        (∀ j, j < k → ¬ ∃ i' : Int,
          Atoi (typedEntry (if 1 ≤ lastInputs.CommitTypeIndex ∧
            lastInputs.CommitTypeIndex ≤ 10
            then Itoa lastInputs.CommitTypeIndex else []) inp j) = some i' ∧
            1 ≤ i' ∧ i' ≤ 10) ∧
        rest = inp.drop (k + 1) := by
  unfold commitTypeLoop
  rw [promptLoop_eq_some_iff, defaultIndexStr_eq]
  simp only [entryAt_eq_typedEntry]
  constructor
  · rintro ⟨k, hk, hbefore, hrest⟩
    obtain ⟨ha, h1, h2, hcode⟩ := (acceptCommitType_eq_some _ _ _).mp hk
    refine ⟨k, ha, h1, h2, hcode, ?_, hrest⟩
    intro j hj hex
    have hsome := (acceptCommitType_isSome_iff _).mpr hex
    rw [hbefore j hj] at hsome
    exact absurd hsome (by simp)
  · rintro ⟨k, ha, h1, h2, hcode, hbefore, hrest⟩
    refine ⟨k, (acceptCommitType_eq_some _ _ _).mpr ⟨ha, h1, h2, hcode⟩, ?_, hrest⟩
    intro j hj
    cases hacc : acceptCommitType (typedEntry (if 1 ≤ lastInputs.CommitTypeIndex ∧
        lastInputs.CommitTypeIndex ≤ 10
        then Itoa lastInputs.CommitTypeIndex else []) inp j) with
    | none => rfl
    | some p =>
      exact absurd ((acceptCommitType_isSome_iff _).mp (by rw [hacc]; rfl)) (hbefore j hj)

/-- The commit-type loop ends exactly when some entry parses as an integer of
1..10. -/
theorem commitTypeLoop_isSome_iff (lastInputs : LastInputs) (inp : Input) :
    (commitTypeLoop lastInputs inp).isSome = true ↔
      ∃ (k : Nat) (i : Int),
        Atoi (typedEntry (if 1 ≤ lastInputs.CommitTypeIndex ∧ lastInputs.CommitTypeIndex ≤ 10
          then Itoa lastInputs.CommitTypeIndex else []) inp k) = some i ∧
        1 ≤ i ∧ i ≤ 10 := by
  unfold commitTypeLoop
  rw [promptLoop_isSome_iff, defaultIndexStr_eq]
  simp only [entryAt_eq_typedEntry, acceptCommitType_isSome_iff]

/-- What a session that reaches the final confirmation went through. -/
theorem collect_eq_some (U : Unicode) (w : World) (d : Draft) (h : collect U w = some d) :
    ∃ in1 in2 in4 : Input,
      workItemLoop U (loadLastInputs w.cache)
        (if w.branch ≠ [] then extractWorkItemFromBranch U w.branch else []) w.stdin
          = some (d.workItem, in1) ∧
      commitTypeLoop (loadLastInputs w.cache) in1 = some ((d.commitType, d.defaultIndex), in2) ∧
      d.scope = (scopeStep (loadLastInputs w.cache) in2).1 ∧
      descriptionLoop U (loadLastInputs w.cache).Description
        (scopeStep (loadLastInputs w.cache) in2).2 = some (d.description, in4) ∧
      d.commitMessage = buildCommitMessage d.commitType d.scope d.description d.body
        d.breakingChange d.issueRef d.workItem ∧
      d.cache = saveLastInputs w.write
        ⟨d.workItem, d.defaultIndex, d.scope, d.description, d.issueRef⟩ := by
  unfold collect at h
  simp only [] at h
  cases h1 : workItemLoop U (loadLastInputs w.cache)
      (if w.branch ≠ [] then extractWorkItemFromBranch U w.branch else []) w.stdin with
  | none => rw [h1] at h; simp at h
  | some p1 =>
    obtain ⟨workItem, in1⟩ := p1
    rw [h1] at h
    simp only [] at h
    cases h2 : commitTypeLoop (loadLastInputs w.cache) in1 with
    | none => rw [h2] at h; simp at h
    | some p2 =>
      obtain ⟨⟨commitType, defaultIndex⟩, in2⟩ := p2
      rw [h2] at h
      simp only [] at h
      cases h3 : descriptionLoop U (loadLastInputs w.cache).Description
          (scopeStep (loadLastInputs w.cache) in2).2 with
      | none => rw [h3] at h; simp at h
      | some p3 =>
        obtain ⟨description, in4⟩ := p3
        rw [h3] at h
        simp only [Option.some.injEq] at h
        subst h
        exact ⟨in1, in2, in4, rfl, h2, rfl, h3, rfl, rfl⟩

/-- A session reaches the final confirmation as soon as its three retry loops
end. -/
theorem collect_of_loops (U : Unicode) (w : World) (workItem : Str) (in1 : Input)
    (code : Str) (i : Int) (in2 : Input) (description : Str) (in4 : Input)
    (h1 : workItemLoop U (loadLastInputs w.cache)
      (if w.branch ≠ [] then extractWorkItemFromBranch U w.branch else []) w.stdin
        = some (workItem, in1))
    (h2 : commitTypeLoop (loadLastInputs w.cache) in1 = some ((code, i), in2))
    (h3 : descriptionLoop U (loadLastInputs w.cache).Description
      (scopeStep (loadLastInputs w.cache) in2).2 = some (description, in4)) :
    ∃ d : Draft, collect U w = some d ∧ d.workItem = workItem ∧ d.commitType = code ∧
      d.defaultIndex = i ∧ d.description = description := by
  unfold collect
  simp only [h1, h2, h3]
  exact ⟨_, rfl, rfl, rfl, rfl, rfl⟩

/-- The message starts with the header: the type, the scope in parentheses
when there is one, a colon, a space and the trimmed description. -/
theorem buildCommitMessage_header (t s d b k r w : Str) :
    ∃ tail : Str, buildCommitMessage t s d b k r w =
      (if s ≠ [] then t ++ lit "(" ++ s ++ lit "): " ++ TrimSpace d
        else t ++ lit ": " ++ TrimSpace d) ++ tail ∧
      (tail = [] ∨ ∃ t', tail = lit "\n\n" ++ t') := by
  have hh : buildHeader t s d = (if s ≠ [] then t ++ lit "(" ++ s ++ lit "): " ++ TrimSpace d
      else t ++ lit ": " ++ TrimSpace d) := by
    unfold buildHeader
    by_cases hs : s = [] <;> simp [hs, lit]
  rw [← hh]
  unfold buildCommitMessage Join
  by_cases hb : b = [] <;> by_cases hf : (buildFooters k r w).length > 0
  · exact ⟨_, by simp only [hb, hf, ne_eq, not_true_eq_false, if_false, if_true]; rfl,
      Or.inr ⟨_, rfl⟩⟩
  · exact ⟨[], by simp [hb, hf, List.intercalate], Or.inl rfl⟩
  · exact ⟨_, by simp only [hb, hf, ne_eq, not_false_eq_true, if_true]; rfl, Or.inr ⟨_, rfl⟩⟩
  · exact ⟨_, by simp only [hb, hf, ne_eq, not_false_eq_true, if_true, if_false]; rfl,
      Or.inr ⟨_, rfl⟩⟩

theorem readLine_fst (inp : Input) : (readLine inp).1 = TrimSpace (inp.headD []) := by
  cases inp <;> rfl

theorem readLine_snd (inp : Input) : (readLine inp).2 = inp.tail := by
  cases inp <;> rfl

theorem confirmAndCommit_yes (U : Unicode) (w : World) (d : Draft)
    (hy : ToLower U (TrimSpace (d.stdin.headD [])) = lit "y" ∨
      ToLower U (TrimSpace (d.stdin.headD [])) = lit "yes") :
    confirmAndCommit U w d =
      { exitCode := if w.commitSucceeds d.commitMessage = true then 0 else 1, cache := d.cache,
        commits := [d.commitMessage], stdin := d.stdin.tail } := by
  have hn : ¬ (ToLower U (ToLower U (readLine d.stdin).1) ≠ lit "y" ∧
      ToLower U (ToLower U (readLine d.stdin).1) ≠ lit "yes") := by
    rw [ToLower_ToLower, readLine_fst]
    rintro ⟨n1, n2⟩
    rcases hy with hy | hy
    · exact n1 hy
    · exact n2 hy
  unfold confirmAndCommit
  rw [if_neg hn, readLine_snd]
  by_cases hc : w.commitSucceeds d.commitMessage = true
  · rw [if_pos hc, if_pos hc]
  · rw [if_neg hc, if_neg hc]

theorem confirmAndCommit_no (U : Unicode) (w : World) (d : Draft)
    (hy : ¬ (ToLower U (TrimSpace (d.stdin.headD [])) = lit "y" ∨
      ToLower U (TrimSpace (d.stdin.headD [])) = lit "yes")) :
    confirmAndCommit U w d =
      { exitCode := 0, cache := d.cache, commits := [], stdin := d.stdin.tail } := by
  have hn : ToLower U (ToLower U (readLine d.stdin).1) ≠ lit "y" ∧
      ToLower U (ToLower U (readLine d.stdin).1) ≠ lit "yes" := by
    rw [ToLower_ToLower, readLine_fst]
    exact ⟨fun e => hy (Or.inl e), fun e => hy (Or.inr e)⟩
  unfold confirmAndCommit
  rw [if_pos hn, readLine_snd]

/-- Claim C10 as stated fails, twice.  The line ` 3`, typed with a space in
front, does not parse as an integer (`strconv.Atoi` rejects it), yet the
commit-type step accepts it, as index 3, because the typed line is trimmed
first.  And when the write of the preference file fails, its error being
discarded, the index chosen in the session is not the persisted one: the file
keeps what it held, here the index 99, which is no catalog index. -/
theorem commitType_line_trimmed_write_unchecked :
    Atoi (lit " 3") = none ∧
    commitTypeLoop LastInputs.zero [lit " 3"] = some ((lit "docs", 3), []) ∧
    collect asciiCase staleWorld = some staleDraft ∧
    staleDraft.defaultIndex = 3 ∧
    (loadLastInputs staleDraft.cache).CommitTypeIndex = 99 := by
  refine ⟨by decide, by decide, ?_, rfl, ?_⟩
  · set_option maxRecDepth 100000 in decide
  · set_option maxRecDepth 100000 in decide

/-- Claim C10, amended: in every session that reaches the final confirmation,
the index chosen is an integer `i` with `1 ≤ i ≤ 10`, parsed by `strconv.Atoi`
from the first entry of the commit-type step that parses as such an integer (an
entry being the typed line with its surrounding white space removed, or on a
blank line the default: the prior index in decimal when it lies in 1..10,
nothing otherwise), the entries before it having been rejected; the header of
the message starts with the `i`-th code of feat, fix, docs, style, refactor,
perf, test, build, ci, chore; the index handed to `saveLastInputs` is that same
`i`, and whenever the write of the preference file succeeds the file holds it,
so that the index read back is `i`.  The step accepts an entry if and only if
it parses as an integer of 1..10, ends if and only if some entry does, and the
session reaches the confirmation as soon as its three retry loops end. -/
theorem commitType_index_valid (U : Unicode) :
    (∀ (w : World) (d : Draft), collect U w = some d →
      1 ≤ d.defaultIndex ∧ d.defaultIndex ≤ 10 ∧
      [lit "feat", lit "fix", lit "docs", lit "style", lit "refactor", lit "perf", lit "test",
        lit "build", lit "ci", lit "chore"][(d.defaultIndex - 1).toNat]? = some d.commitType ∧
      (∃ k0 k : Nat,
        validateWorkItem (ToLower U (typedEntry
          (if (loadLastInputs w.cache).WorkItem = []
            then (if w.branch ≠ [] then extractWorkItemFromBranch U w.branch else [])
            else (loadLastInputs w.cache).WorkItem) w.stdin k0)) = true ∧
        (∀ j, j < k0 → validateWorkItem (ToLower U (typedEntry
          (if (loadLastInputs w.cache).WorkItem = []
            then (if w.branch ≠ [] then extractWorkItemFromBranch U w.branch else [])
            else (loadLastInputs w.cache).WorkItem) w.stdin j)) = false) ∧
        Atoi (typedEntry
          (if 1 ≤ (loadLastInputs w.cache).CommitTypeIndex ∧
              (loadLastInputs w.cache).CommitTypeIndex ≤ 10
            then Itoa (loadLastInputs w.cache).CommitTypeIndex else [])
          (w.stdin.drop (k0 + 1)) k) = some d.defaultIndex ∧
        ∀ j, j < k → ¬ ∃ i : Int,
          Atoi (typedEntry
            (if 1 ≤ (loadLastInputs w.cache).CommitTypeIndex ∧
                (loadLastInputs w.cache).CommitTypeIndex ≤ 10
              then Itoa (loadLastInputs w.cache).CommitTypeIndex else [])
            (w.stdin.drop (k0 + 1)) j) = some i ∧ 1 ≤ i ∧ i ≤ 10) ∧
      (∃ tail : Str, d.commitMessage =
        (if d.scope ≠ [] then d.commitType ++ lit "(" ++ d.scope ++ lit "): " ++
            TrimSpace d.description
          else d.commitType ++ lit ": " ++ TrimSpace d.description) ++ tail ∧
        (tail = [] ∨ ∃ t, tail = lit "\n\n" ++ t)) ∧
      d.cache = saveLastInputs w.write
        ⟨d.workItem, d.defaultIndex, d.scope, d.description, d.issueRef⟩ ∧
      (w.write = WriteOutcome.succeeds →
        d.cache = some (MarshalIndent
          ⟨d.workItem, d.defaultIndex, d.scope, d.description, d.issueRef⟩) ∧
        (loadLastInputs d.cache).CommitTypeIndex = d.defaultIndex ∧
        1 ≤ (loadLastInputs d.cache).CommitTypeIndex ∧
        (loadLastInputs d.cache).CommitTypeIndex ≤ 10)) ∧
    (∀ (w : World) (workItem : Str) (in1 : Input) (code : Str) (i : Int) (in2 : Input)
        (description : Str) (in4 : Input),
      workItemLoop U (loadLastInputs w.cache)
        (if w.branch ≠ [] then extractWorkItemFromBranch U w.branch else []) w.stdin
          = some (workItem, in1) →
      commitTypeLoop (loadLastInputs w.cache) in1 = some ((code, i), in2) →
      descriptionLoop U (loadLastInputs w.cache).Description
        (scopeStep (loadLastInputs w.cache) in2).2 = some (description, in4) →
      ∃ d : Draft, collect U w = some d ∧ d.workItem = workItem ∧ d.commitType = code ∧
        d.defaultIndex = i ∧ d.description = description) ∧
    (∀ (lastInputs : LastInputs) (inp : Input) (code : Str) (i : Int) (rest : Input),
      commitTypeLoop lastInputs inp = some ((code, i), rest) ↔
        ∃ k : Nat,
          Atoi (typedEntry (if 1 ≤ lastInputs.CommitTypeIndex ∧
            lastInputs.CommitTypeIndex ≤ 10
            then Itoa lastInputs.CommitTypeIndex else []) inp k) = some i ∧
          1 ≤ i ∧ i ≤ 10 ∧
          [lit "feat", lit "fix", lit "docs", lit "style", lit "refactor", lit "perf",
            lit "test", lit "build", lit "ci", lit "chore"][(i - 1).toNat]? = some code ∧
          (∀ j, j < k → ¬ ∃ i' : Int,
            Atoi (typedEntry (if 1 ≤ lastInputs.CommitTypeIndex ∧
              lastInputs.CommitTypeIndex ≤ 10
              then Itoa lastInputs.CommitTypeIndex else []) inp j) = some i' ∧
              1 ≤ i' ∧ i' ≤ 10) ∧
          rest = inp.drop (k + 1)) ∧
    (∀ (lastInputs : LastInputs) (inp : Input),
      (commitTypeLoop lastInputs inp).isSome = true ↔
        ∃ (k : Nat) (i : Int),
          Atoi (typedEntry (if 1 ≤ lastInputs.CommitTypeIndex ∧
            lastInputs.CommitTypeIndex ≤ 10
            then Itoa lastInputs.CommitTypeIndex else []) inp k) = some i ∧
          1 ≤ i ∧ i ≤ 10) ∧
    (∀ (entry code : Str) (i : Int), acceptCommitType entry = some (code, i) ↔
      Atoi entry = some i ∧ 1 ≤ i ∧ i ≤ 10 ∧
      [lit "feat", lit "fix", lit "docs", lit "style", lit "refactor", lit "perf", lit "test",
        lit "build", lit "ci", lit "chore"][(i - 1).toNat]? = some code) ∧
    (∀ (entry : Str), (acceptCommitType entry).isSome = true ↔
      ∃ i : Int, Atoi entry = some i ∧ 1 ≤ i ∧ i ≤ 10) ∧
    (∀ (defaultVal : Str) (inp : Input) (k : Nat),
      typedEntry defaultVal inp k =
        if TrimSpace (inp.getD k []) = [] then defaultVal else TrimSpace (inp.getD k [])) ∧
    commitTypeLoop LastInputs.zero
        [lit "0", lit "eleven", lit "11", lit "", lit " 3", lit "x"]
      = some ((lit "docs", 3), [lit "x"]) ∧
    commitTypeLoop ⟨lit "bcds-1", 4, [], [], []⟩ [lit "", lit "x"]
      = some ((lit "style", 4), [lit "x"]) ∧
    commitTypeLoop ⟨lit "bcds-1", 99, [], [], []⟩ [lit ""] = none := by
  refine ⟨?_, collect_of_loops U, commitTypeLoop_eq_some_iff, commitTypeLoop_isSome_iff,
    acceptCommitType_eq_some, acceptCommitType_isSome_iff, fun _ _ _ => rfl,
    by decide, by decide, by decide⟩
  intro w d h
  obtain ⟨in1, in2, in4, hwi, hct, -, -, hmsg, hcache⟩ := collect_eq_some U w d h
  obtain ⟨k0, hv, hbefore0, -, -, hin1⟩ := (workItemLoop_eq_some_iff U _ _ _ _ _).mp hwi
  obtain ⟨k, ha, h1, h2, hcode, hbefore, -⟩ := (commitTypeLoop_eq_some_iff _ _ _ _ _).mp hct
  rw [hin1] at ha hbefore
  have hint : isInt d.defaultIndex := by unfold isInt intSize; constructor <;> omega
  refine ⟨h1, h2, hcode, ⟨k0, k, hv, hbefore0, ha, hbefore⟩, ?_, hcache, ?_⟩
  · rw [hmsg]
    exact buildCommitMessage_header _ _ _ _ _ _ _
  · intro hw
    rw [hw] at hcache
    have hload : (loadLastInputs d.cache).CommitTypeIndex = d.defaultIndex := by
      rw [hcache, loadLastInputs_saveLastInputs _ hint]
    refine ⟨hcache, hload, ?_, ?_⟩
    · rw [hload]; exact h1
    · rw [hload]; exact h2

/-- An instance of claim C10 as amended: the sample run, in which the entry `1`
selects `feat` and the index 1 is written and read back. -/
theorem commitType_index_valid_witness :
    collect asciiCase sampleWorld = some sampleDraft ∧
    sampleDraft.defaultIndex = 1 ∧ sampleDraft.commitType = lit "feat" ∧
    sampleDraft.cache = some (MarshalIndent
      ⟨lit "bcds-77-login", 1, lit "api", lit "add endpoint", []⟩) ∧
    (loadLastInputs sampleDraft.cache).CommitTypeIndex = 1 :=
  ⟨by set_option maxRecDepth 100000 in decide, rfl, rfl,
    (((commitType_index_valid asciiCase).1 sampleWorld sampleDraft
      (by set_option maxRecDepth 100000 in decide)).2.2.2.2.2.2 rfl).1,
    (((commitType_index_valid asciiCase).1 sampleWorld sampleDraft
      (by set_option maxRecDepth 100000 in decide)).2.2.2.2.2.2 rfl).2.1⟩

/-- Claim C9 as stated fails: `saveLastInputs` discards the errors of
`os.MkdirAll` and `os.WriteFile`, so a session reaches the final confirmation,
and commits, also when the write failed.  Here the file held the record of an
earlier session and the failed write leaves it as it was: at the confirmation
the preference record is still the old one, not this session's values. -/
theorem failed_write_keeps_old_record :
    staleWorld.staged = true ∧
    collect asciiCase staleWorld = some staleDraft ∧
    staleDraft.cache = staleWorld.cache ∧
    loadLastInputs staleDraft.cache = ⟨lit "bcds-5", 99, lit "ui", lit "fix typo", []⟩ ∧
    loadLastInputs staleDraft.cache ≠
      ⟨staleDraft.workItem, staleDraft.defaultIndex, staleDraft.scope, staleDraft.description,
        staleDraft.issueRef⟩ ∧
    main asciiCase staleWorld =
      some ⟨0, staleWorld.cache, [lit "docs(core): update docs\n\nCloses #9\nRefs bcds-9"], []⟩ := by
  refine ⟨rfl, ?_, rfl, ?_, ?_, ?_⟩
  · set_option maxRecDepth 100000 in decide
  · set_option maxRecDepth 100000 in decide
  · set_option maxRecDepth 100000 in decide
  · set_option maxRecDepth 100000 in decide

/-- Claim C9, amended: for every session that reaches the final confirmation,
`saveLastInputs` has already been called with that session's work item, chosen
type index, scope, description and issue reference, and whenever the write of
the preference file succeeds the file holds that record (a failed write leaves
what the environment leaves); the file stays so whatever the answer is;
`git commit` is run, once and with the assembled message, if and only if the
trimmed and lowercased answer is `y` or `yes`; on any other answer the session
ends with exit status 0, without a commit; in both cases exactly one line is
read. -/
theorem save_precedes_confirmation (U : Unicode) (w : World) (d : Draft)
    (hstaged : w.staged = true) (h : collect U w = some d) :
    (w.write = WriteOutcome.succeeds →
      d.cache = some (MarshalIndent
        ⟨d.workItem, d.defaultIndex, d.scope, d.description, d.issueRef⟩) ∧
      loadLastInputs d.cache = ⟨coerceUTF8 d.workItem, d.defaultIndex, coerceUTF8 d.scope,
        coerceUTF8 d.description, coerceUTF8 d.issueRef⟩) ∧
    (∀ left : Option Str, w.write = WriteOutcome.fails left → d.cache = left) ∧
    d.commitMessage = (lit "\n\n").intercalate
      (specParagraphs d.commitType d.scope d.description d.body d.breakingChange d.issueRef
        d.workItem) ∧
    ∃ out : Outcome, main U w = some out ∧
      out.cache = d.cache ∧
      out.stdin = d.stdin.tail ∧
      (out.commits = [d.commitMessage] ↔
        (ToLower U (TrimSpace (d.stdin.headD [])) = lit "y" ∨
          ToLower U (TrimSpace (d.stdin.headD [])) = lit "yes")) ∧
      (¬ (ToLower U (TrimSpace (d.stdin.headD [])) = lit "y" ∨
          ToLower U (TrimSpace (d.stdin.headD [])) = lit "yes") →
        out.commits = [] ∧ out.exitCode = 0) := by
  obtain ⟨in1, in2, in4, -, hct, -, -, hmsg, hcache⟩ := collect_eq_some U w d h
  obtain ⟨k, -, h1, h2, -, -, -⟩ := (commitTypeLoop_eq_some_iff _ _ _ _ _).mp hct
  have hint : isInt d.defaultIndex := by unfold isInt intSize; constructor <;> omega
  refine ⟨?_, ?_, ?_, confirmAndCommit U w d, ?_, ?_⟩
  · intro hw
    rw [hw] at hcache
    exact ⟨hcache, by rw [hcache]; exact loadLastInputs_saveLastInputs _ hint⟩
  · intro left hw
    rw [hw] at hcache
    exact hcache
  · rw [hmsg, buildCommitMessage_eq]
  · simp [main, hstaged, h]
  · by_cases hy : ToLower U (TrimSpace (d.stdin.headD [])) = lit "y" ∨
        ToLower U (TrimSpace (d.stdin.headD [])) = lit "yes"
    · rw [confirmAndCommit_yes U w d hy]
      exact ⟨rfl, rfl, ⟨fun _ => hy, fun _ => rfl⟩, fun hno => absurd hy hno⟩
    · rw [confirmAndCommit_no U w d hy]
      refine ⟨rfl, rfl, ⟨fun hc => ?_, fun hyes => absurd hyes hy⟩, fun _ => ⟨rfl, rfl⟩⟩
      exact absurd hc (by simp)

/-- An instance of claim C9 as amended: the sample run, whose write succeeds
and which is confirmed with `y`, has its record in the file at the confirmation
and commits the assembled message once. -/
theorem save_precedes_confirmation_witness :
    sampleWorld.staged = true ∧ collect asciiCase sampleWorld = some sampleDraft ∧
    loadLastInputs sampleDraft.cache =
      ⟨lit "bcds-77-login", 1, lit "api", lit "add endpoint", []⟩ ∧
    ∃ out : Outcome, main asciiCase sampleWorld = some out ∧
      out.cache = sampleDraft.cache ∧ out.commits = [sampleDraft.commitMessage] :=
  ⟨rfl, by set_option maxRecDepth 100000 in decide,
    ((save_precedes_confirmation asciiCase sampleWorld sampleDraft rfl
      (by set_option maxRecDepth 100000 in decide)).1 rfl).2,
    (save_precedes_confirmation asciiCase sampleWorld sampleDraft rfl
      (by set_option maxRecDepth 100000 in decide)).2.2.2.elim
      (fun out ho => ⟨out, ho.1, ho.2.1, ho.2.2.2.1.mpr (by decide)⟩)⟩

end GitCm
